import Mathlib

/-!
Verification of the cooDb storage core (a Bitcask-style key-value store)
against its natural-language specification.  The Python sources under
`src/coodb/` are shallowly embedded: byte strings become `List Nat`
(each byte `< 256` on real data), files become byte lists, the database
state becomes an explicit record, and fallible operations return `Option`.

Embedded modules:
  * `src/coodb/data/log_record.py`  — record codec, position codec, CRC-32
  * `src/coodb/data/data_file.py`   — `DataFile.read_log_record` / append
  * `src/coodb/db.py`               — write/read path, rollover, recovery
  * `src/coodb/batch.py`            — batch buffering and commit
  * `src/coodb/fio/io_manager.py`   — the two I/O backends
-/

set_option autoImplicit false

namespace CooDb

/-- Byte sequences (Python `bytes`) as lists of naturals. -/
abbrev Bytes := List Nat

/-! ### Integer byte encodings (Python `struct`) -/

/-- `struct.pack(">I", n)`: big-endian unsigned 32-bit. -/
def be32enc (n : Nat) : Bytes :=
  [n / 2 ^ 24 % 256, n / 2 ^ 16 % 256, n / 2 ^ 8 % 256, n % 256]

/-- `struct.unpack(">I", b)` on a 4-byte buffer. -/
def be32dec (b : Bytes) : Nat :=
  b.getD 0 0 * 2 ^ 24 + b.getD 1 0 * 2 ^ 16 + b.getD 2 0 * 2 ^ 8 + b.getD 3 0

/-- `struct.pack("<I", n)` / the `I` field of `"=IQI"` on a little-endian host. -/
def le32enc (n : Nat) : Bytes :=
  [n % 256, n / 2 ^ 8 % 256, n / 2 ^ 16 % 256, n / 2 ^ 24 % 256]

def le32dec (b : Bytes) : Nat :=
  b.getD 0 0 + b.getD 1 0 * 2 ^ 8 + b.getD 2 0 * 2 ^ 16 + b.getD 3 0 * 2 ^ 24

/-- The `Q` field of `"=IQI"`: little-endian unsigned 64-bit. -/
def le64enc (n : Nat) : Bytes :=
  [n % 256, n / 2 ^ 8 % 256, n / 2 ^ 16 % 256, n / 2 ^ 24 % 256,
   n / 2 ^ 32 % 256, n / 2 ^ 40 % 256, n / 2 ^ 48 % 256, n / 2 ^ 56 % 256]

def le64dec (b : Bytes) : Nat :=
  b.getD 0 0 + b.getD 1 0 * 2 ^ 8 + b.getD 2 0 * 2 ^ 16 + b.getD 3 0 * 2 ^ 24 +
  b.getD 4 0 * 2 ^ 32 + b.getD 5 0 * 2 ^ 40 + b.getD 6 0 * 2 ^ 48 + b.getD 7 0 * 2 ^ 56

@[simp] theorem be32enc_length (n : Nat) : (be32enc n).length = 4 := rfl

@[simp] theorem le32enc_length (n : Nat) : (le32enc n).length = 4 := rfl

@[simp] theorem le64enc_length (n : Nat) : (le64enc n).length = 8 := rfl

theorem be32_roundtrip {n : Nat} (h : n < 2 ^ 32) : be32dec (be32enc n) = n := by
  simp only [be32enc, be32dec, List.getD_cons_zero, List.getD_cons_succ]
  omega

theorem le32_roundtrip {n : Nat} (h : n < 2 ^ 32) : le32dec (le32enc n) = n := by
  simp only [le32enc, le32dec, List.getD_cons_zero, List.getD_cons_succ]
  omega

theorem le64_roundtrip {n : Nat} (h : n < 2 ^ 64) : le64dec (le64enc n) = n := by
  simp only [le64enc, le64dec, List.getD_cons_zero, List.getD_cons_succ]
  omega

/-! ### CRC-32 (`zlib.crc32`, IEEE 802.3, reflected polynomial) -/

/-- One shift-and-conditionally-xor round of the bitwise CRC-32. -/
def crc32Round (c : Nat) : Nat :=
  if c % 2 = 1 then c / 2 ^^^ 0xEDB88320 else c / 2

/-- Fold one byte into the running CRC state. -/
def crc32Byte (c b : Nat) : Nat :=
  crc32Round^[8] (c ^^^ b % 256)

def crc32Aux : Nat → Bytes → Nat
  | c, [] => c
  | c, b :: bs => crc32Aux (crc32Byte c b) bs

/-- `zlib.crc32(data)`. -/
def crc32 (data : Bytes) : Nat :=
  crc32Aux 0xFFFFFFFF data ^^^ 0xFFFFFFFF

theorem xor_lt_32 {a b : Nat} (ha : a < 2 ^ 32) (hb : b < 2 ^ 32) : a ^^^ b < 2 ^ 32 :=
  Nat.xor_lt_two_pow ha hb

theorem crc32Round_lt {c : Nat} (h : c < 2 ^ 32) : crc32Round c < 2 ^ 32 := by
  unfold crc32Round
  split
  · exact xor_lt_32 (by omega) (by norm_num)
  · omega

theorem crc32Byte_lt {c : Nat} (h : c < 2 ^ 32) (b : Nat) : crc32Byte c b < 2 ^ 32 := by
  unfold crc32Byte
  have hx : c ^^^ b % 256 < 2 ^ 32 := xor_lt_32 h (by have := Nat.mod_lt b (show 0 < 256 by norm_num); omega)
  have step : ∀ k x, x < 2 ^ 32 → crc32Round^[k] x < 2 ^ 32 := by
    intro k
    induction k with
    | zero => intro x hx; simpa using hx
    | succ k ih =>
      intro x hx
      rw [Function.iterate_succ_apply]
      exact ih _ (crc32Round_lt hx)
  exact step 8 _ hx

theorem crc32Aux_lt {c : Nat} (h : c < 2 ^ 32) (bs : Bytes) : crc32Aux c bs < 2 ^ 32 := by
  induction bs generalizing c with
  | nil => exact h
  | cons b bs ih => exact ih (crc32Byte_lt h b)

theorem crc32_lt (data : Bytes) : crc32 data < 2 ^ 32 :=
  xor_lt_32 (crc32Aux_lt (by norm_num) data) (by norm_num)

/-- Sanity: `zlib.crc32(b"a") == 0xE8B7BE43`. -/
theorem crc32_single_a : crc32 [97] = 0xE8B7BE43 := by decide

/-! ### `LogRecordType` (`src/coodb/data/log_record.py`) -/

inductive LogRecordType where
  | normal
  | deleted
  | txnStart
  | txnFinished
  | txnAbort
deriving DecidableEq, Repr

/-- The numeric enum value of each record type. -/
def LogRecordType.toVal : LogRecordType → Nat
  | .normal => 1
  | .deleted => 2
  | .txnStart => 3
  | .txnFinished => 4
  | .txnAbort => 5

/-- `LogRecordType(n)`: `none` models the `ValueError` on an unknown value. -/
def LogRecordType.ofVal (n : Nat) : Option LogRecordType :=
  if n = 1 then some .normal
  else if n = 2 then some .deleted
  else if n = 3 then some .txnStart
  else if n = 4 then some .txnFinished
  else if n = 5 then some .txnAbort
  else none

@[simp] theorem LogRecordType.ofVal_toVal (t : LogRecordType) : ofVal t.toVal = some t := by
  cases t <;> rfl

/-! ### `LogRecord` codec (`src/coodb/data/log_record.py`) -/

/-- Header size: CRC(4) + type(1) + key length(4) + value length(4). -/
def HEADER_SIZE : Nat := 13

structure LogRecord where
  key : Bytes
  value : Bytes
  type : LogRecordType
deriving DecidableEq, Repr

/-- The bytes covered by the CRC: everything from offset 4 to the end. -/
def LogRecord.encodeTail (r : LogRecord) : Bytes :=
  r.type.toVal :: (be32enc r.key.length ++ be32enc r.value.length ++ r.key ++ r.value)

/-- `LogRecord.encode`: the on-disk buffer and its total length. -/
def LogRecord.encode (r : LogRecord) : Bytes × Nat :=
  (be32enc (crc32 r.encodeTail) ++ r.encodeTail,
   HEADER_SIZE + r.key.length + r.value.length)

/-- `LogRecord.decode`: parse a buffer; `none` models every failure path. -/
def LogRecord.decode (data : Bytes) : Option LogRecord :=
  if data.length < HEADER_SIZE then none
  else
    let crc := be32dec (data.take 4)
    let rtype := data.getD 4 0
    let keySize := be32dec ((data.drop 5).take 4)
    let valueSize := be32dec ((data.drop 9).take 4)
    if crc ≠ crc32 (data.drop 4) then none
    else
      match LogRecordType.ofVal rtype with
      | none => none
      | some t =>
          some ⟨(data.drop HEADER_SIZE).take keySize,
                if valueSize > 0 then (data.drop (HEADER_SIZE + keySize)).take valueSize else [],
                t⟩

@[simp] theorem encodeTail_length (r : LogRecord) :
    r.encodeTail.length = 9 + r.key.length + r.value.length := by
  simp [LogRecord.encodeTail]
  omega

@[simp] theorem encode_fst_length (r : LogRecord) :
    (r.encode).1.length = HEADER_SIZE + r.key.length + r.value.length := by
  simp [LogRecord.encode, HEADER_SIZE]
  omega

/-! ### `LogRecordPos` codec (`src/coodb/data/log_record.py`) -/

structure LogRecordPos where
  fileId : Nat
  offset : Nat
  size : Nat
deriving DecidableEq, Repr

/-- `struct.pack("=IQI", ...)` on the little-endian hosts the code targets. -/
def LogRecordPos.encode (p : LogRecordPos) : Bytes :=
  le32enc p.fileId ++ le64enc p.offset ++ le32enc p.size

/-- `struct.unpack("=IQI", data)`; `none` models the raised `ValueError`. -/
def LogRecordPos.decode (data : Bytes) : Option LogRecordPos :=
  if data.length = 16 then
    some ⟨le32dec (data.take 4), le64dec ((data.drop 4).take 8), le32dec ((data.drop 12).take 4)⟩
  else none

/-! ### Codec layout and round-trip lemmas -/

theorem encode_eq (r : LogRecord) :
    (r.encode).1 = be32enc (crc32 r.encodeTail) ++ r.encodeTail := rfl

theorem encode_drop_4 (r : LogRecord) : (r.encode).1.drop 4 = r.encodeTail := by
  rw [encode_eq]
  exact List.drop_left' (be32enc_length _)

theorem encode_take_4 (r : LogRecord) :
    (r.encode).1.take 4 = be32enc (crc32 r.encodeTail) := by
  rw [encode_eq]
  exact List.take_left' (be32enc_length _)

theorem encode_getD_4 (r : LogRecord) : (r.encode).1.getD 4 0 = r.type.toVal := by
  rw [encode_eq]
  simp [be32enc, LogRecord.encodeTail, List.getD_cons_succ, List.getD_cons_zero]

theorem encode_drop_5 (r : LogRecord) :
    (r.encode).1.drop 5 =
      be32enc r.key.length ++ be32enc r.value.length ++ r.key ++ r.value := by
  rw [encode_eq, LogRecord.encodeTail]
  simp [be32enc, List.cons_append]

theorem encode_drop_9 (r : LogRecord) :
    (r.encode).1.drop 9 = be32enc r.value.length ++ r.key ++ r.value := by
  rw [encode_eq, LogRecord.encodeTail]
  simp [be32enc, List.cons_append]

theorem encode_drop_13 (r : LogRecord) :
    (r.encode).1.drop 13 = r.key ++ r.value := by
  rw [encode_eq, LogRecord.encodeTail]
  simp [be32enc, List.cons_append]

theorem encode_keySizeField (r : LogRecord) :
    ((r.encode).1.drop 5).take 4 = be32enc r.key.length := by
  rw [encode_drop_5]
  rw [List.append_assoc, List.append_assoc]
  exact List.take_left' (be32enc_length _)

theorem encode_valueSizeField (r : LogRecord) :
    ((r.encode).1.drop 9).take 4 = be32enc r.value.length := by
  rw [encode_drop_9]
  rw [List.append_assoc]
  exact List.take_left' (be32enc_length _)

theorem encode_keyField (r : LogRecord) :
    ((r.encode).1.drop 13).take r.key.length = r.key := by
  rw [encode_drop_13]
  exact List.take_left _ _

theorem encode_valueField (r : LogRecord) :
    (r.encode).1.drop (13 + r.key.length) = r.value := by
  have h : List.drop r.key.length ((r.encode).1.drop 13) = r.value := by
    rw [encode_drop_13]
    exact List.drop_left _ _
  calc (r.encode).1.drop (13 + r.key.length)
      = List.drop r.key.length ((r.encode).1.drop 13) :=
        (List.drop_drop r.key.length 13 _).symm
    _ = r.value := h

/-- Decoding an encoded record recovers it; needs the two length fields to
fit in their u32 slots (outside that range `struct.pack_into(">I", ...)`
raises in the source). -/
theorem decode_encode (r : LogRecord)
    (hk : r.key.length < 2 ^ 32) (hv : r.value.length < 2 ^ 32) :
    LogRecord.decode (r.encode).1 = some r := by
  unfold LogRecord.decode
  rw [encode_fst_length]
  rw [if_neg (by simp only [HEADER_SIZE]; omega)]
  simp only [encode_take_4, encode_getD_4, encode_keySizeField, encode_valueSizeField,
    encode_drop_4]
  rw [be32_roundtrip (crc32_lt _), be32_roundtrip hk, be32_roundtrip hv]
  rw [if_neg (by simp)]
  rw [LogRecordType.ofVal_toVal]
  have hd13 : (r.encode).1.drop HEADER_SIZE = r.key ++ r.value := by
    simpa [HEADER_SIZE] using encode_drop_13 r
  have hkey : (r.key ++ r.value).take r.key.length = r.key := List.take_left _ _
  have hval : (r.encode).1.drop (HEADER_SIZE + r.key.length) = r.value := by
    simpa [HEADER_SIZE] using encode_valueField r
  simp only [hd13, hkey, hval]
  by_cases h : r.value.length > 0
  · rw [if_pos h]
    rw [List.take_length]
  · rw [if_neg h]
    have hv0 : r.value = [] := List.eq_nil_of_length_eq_zero (by omega)
    rw [← hv0]

/-! ### Position codec round-trip -/

theorem posEncode_length (p : LogRecordPos) : p.encode.length = 16 := by
  simp [LogRecordPos.encode]

theorem posDecode_posEncode (p : LogRecordPos)
    (hf : p.fileId < 2 ^ 32) (ho : p.offset < 2 ^ 64) (hs : p.size < 2 ^ 32) :
    LogRecordPos.decode p.encode = some p := by
  unfold LogRecordPos.decode
  rw [if_pos (posEncode_length p)]
  unfold LogRecordPos.encode
  have h1 : (le32enc p.fileId ++ le64enc p.offset ++ le32enc p.size).take 4
      = le32enc p.fileId := by
    rw [List.append_assoc]
    exact List.take_left' (le32enc_length _)
  have h2 : ((le32enc p.fileId ++ le64enc p.offset ++ le32enc p.size).drop 4).take 8
      = le64enc p.offset := by
    rw [List.append_assoc, List.drop_left' (le32enc_length _)]
    exact List.take_left' (le64enc_length _)
  have h3 : ((le32enc p.fileId ++ le64enc p.offset ++ le32enc p.size).drop 12).take 4
      = le32enc p.size := by
    have hd : (le32enc p.fileId ++ le64enc p.offset ++ le32enc p.size).drop 12
        = le32enc p.size := by
      calc (le32enc p.fileId ++ le64enc p.offset ++ le32enc p.size).drop 12
          = ((le32enc p.fileId ++ le64enc p.offset ++ le32enc p.size).drop 4).drop 8 := by
            rw [List.drop_drop]
        _ = le32enc p.size := by
            rw [List.append_assoc, List.drop_left' (le32enc_length _),
              List.drop_left' (le64enc_length _)]
    rw [hd]
    simp [le32enc]
  rw [h1, h2, h3, le32_roundtrip hf, le64_roundtrip ho, le32_roundtrip hs]

/-! ### `DataFile.read_log_record` (`src/coodb/data/data_file.py`)

A data file is its byte contents.  `read_log_record` parses one record at
`offset`; every validation failure (out of range, short header, type not in
`{NORMAL, DELETED, TXNFINISHED}`, empty key, size cap, CRC mismatch)
returns `none`.  The two `io_manager.read` short-read checks in the source
cannot fire because the preceding range checks guarantee enough bytes. -/

/-- The 100 MiB sanity cap on `key_size + value_size`. -/
def MAX_DATA_SIZE : Nat := 100 * 1024 * 1024

def readLogRecord (file : Bytes) (offset : Nat) : Option (LogRecord × Nat) :=
  if offset ≥ file.length then none
  else if offset + HEADER_SIZE > file.length then none
  else
    let headerBuf := (file.drop offset).take HEADER_SIZE
    let crc := be32dec (headerBuf.take 4)
    let rtype := headerBuf.getD 4 0
    let keySize := be32dec ((headerBuf.drop 5).take 4)
    let valueSize := be32dec ((headerBuf.drop 9).take 4)
    if ¬(rtype = 1 ∨ rtype = 2 ∨ rtype = 4) then none
    else if keySize = 0 ∨ keySize + valueSize > MAX_DATA_SIZE then none
    else
      let totalSize := HEADER_SIZE + keySize + valueSize
      if offset + totalSize > file.length then none
      else
        let recordBuf := (file.drop offset).take totalSize
        if crc ≠ crc32 (recordBuf.drop 4) then none
        else
          match LogRecordType.ofVal rtype with
          | none => none
          | some t =>
              some (⟨(recordBuf.drop HEADER_SIZE).take keySize,
                     if valueSize > 0 then recordBuf.drop (HEADER_SIZE + keySize) else [],
                     t⟩, totalSize)

/-- A successful read sits fully inside the file and spans at least a header. -/
theorem readLogRecord_bounds {file : Bytes} {offset : Nat} {r : LogRecord} {n : Nat}
    (h : readLogRecord file offset = some (r, n)) :
    HEADER_SIZE ≤ n ∧ offset + n ≤ file.length := by
  simp only [readLogRecord] at h
  split at h
  · exact absurd h (by simp)
  · split at h
    · exact absurd h (by simp)
    · split at h
      · exact absurd h (by simp)
      · split at h
        · exact absurd h (by simp)
        · split at h
          · exact absurd h (by simp)
          · split at h
            · exact absurd h (by simp)
            · rename_i hoff hhead htype hsize htot hcrc
              split at h
              · exact absurd h (by simp)
              · simp only [Option.some.injEq, Prod.mk.injEq] at h
                omega

/-- The byte slice `[o, o+m)` of a file is unchanged by appending bytes. -/
theorem slice_append {file extra : Bytes} {o m : Nat} (h : o + m ≤ file.length) :
    ((file ++ extra).drop o).take m = (file.drop o).take m := by
  rw [List.drop_append_of_le_length (by omega)]
  exact List.take_append_of_le_length (by simp; omega)

/-- Appending bytes to a file does not disturb a record already readable at
an earlier offset. -/
theorem readLogRecord_append {file : Bytes} (extra : Bytes) {offset : Nat}
    {r : LogRecord} {n : Nat} (h : readLogRecord file offset = some (r, n)) :
    readLogRecord (file ++ extra) offset = some (r, n) := by
  obtain ⟨hn, hbound⟩ := readLogRecord_bounds h
  have hoff : offset < file.length := by
    have : 0 < HEADER_SIZE := by simp [HEADER_SIZE]
    omega
  have hlen : file.length ≤ (file ++ extra).length := by simp
  simp only [readLogRecord] at h ⊢
  rw [if_neg (by omega)] at h
  rw [if_neg (by omega)] at h
  rw [if_neg (by omega), if_neg (by omega)]
  rw [slice_append (show offset + HEADER_SIZE ≤ file.length by omega)]
  split at h
  · exact absurd h (by simp)
  · split at h
    · exact absurd h (by simp)
    · rename_i htype hsize
      rw [if_neg htype, if_neg hsize]
      split at h
      · exact absurd h (by simp)
      · rename_i htot
        rw [if_neg (by omega)]
        rw [slice_append (show offset +
            (HEADER_SIZE + be32dec (List.take 4 (List.drop 5 (List.take HEADER_SIZE (List.drop offset file))))
              + be32dec (List.take 4 (List.drop 9 (List.take HEADER_SIZE (List.drop offset file)))))
            ≤ file.length by omega)]
        exact h

theorem getD_take_of_lt {l : Bytes} {n i : Nat} (h : i < n) :
    (l.take n).getD i 0 = l.getD i 0 := by
  simp [List.getD, List.getElem?_take_of_lt h]

/-- A record of an accepted type, with a non-empty key and sizes within the
100 MiB cap, appended at the end of a file, is read back intact by
`read_log_record` at the append offset. -/
theorem readLogRecord_readback (file : Bytes) (r : LogRecord)
    (ht : r.type = .normal ∨ r.type = .deleted ∨ r.type = .txnFinished)
    (hk : r.key ≠ [])
    (hcap : r.key.length + r.value.length ≤ MAX_DATA_SIZE) :
    readLogRecord (file ++ (r.encode).1) file.length
      = some (r, HEADER_SIZE + r.key.length + r.value.length) := by
  have hklt : r.key.length < 2 ^ 32 := by
    have : MAX_DATA_SIZE < 2 ^ 32 := by norm_num [MAX_DATA_SIZE]
    omega
  have hvlt : r.value.length < 2 ^ 32 := by
    have : MAX_DATA_SIZE < 2 ^ 32 := by norm_num [MAX_DATA_SIZE]
    omega
  have hencL : (r.encode).1.length = 13 + r.key.length + r.value.length := by
    simp [encode_fst_length, HEADER_SIZE]
  have hdropAll : (file ++ (r.encode).1).drop file.length = (r.encode).1 :=
    List.drop_left _ _
  simp only [readLogRecord, HEADER_SIZE]
  rw [if_neg (by simp [hencL])]
  rw [if_neg (by simp [hencL]; omega)]
  rw [hdropAll]
  -- header fields
  have hcrcF : ((r.encode).1.take 13).take 4 = be32enc (crc32 r.encodeTail) := by
    rw [List.take_take, (show (4 : Nat) ⊓ 13 = 4 from rfl)]
    exact encode_take_4 r
  have htypeF : ((r.encode).1.take 13).getD 4 0 = r.type.toVal :=
    (getD_take_of_lt (by omega)).trans (encode_getD_4 r)
  have hksF : (((r.encode).1.take 13).drop 5).take 4 = be32enc r.key.length := by
    rw [List.drop_take, List.take_take, (show (4 : Nat) ⊓ (13 - 5) = 4 from rfl)]
    exact encode_keySizeField r
  have hvsF : (((r.encode).1.take 13).drop 9).take 4 = be32enc r.value.length := by
    rw [List.drop_take, List.take_take, (show (4 : Nat) ⊓ (13 - 9) = 4 from rfl)]
    exact encode_valueSizeField r
  rw [hcrcF, htypeF, hksF, hvsF, be32_roundtrip (crc32_lt _), be32_roundtrip hklt,
    be32_roundtrip hvlt]
  have hkpos : r.key.length ≠ 0 := by
    intro h0
    exact hk (List.eq_nil_of_length_eq_zero h0)
  rw [if_neg (by rcases ht with h | h | h <;> simp [h, LogRecordType.toVal])]
  rw [if_neg (by push_neg; exact ⟨hkpos, hcap⟩)]
  rw [if_neg (by simp [hencL])]
  have hrecBuf : (r.encode).1.take (13 + r.key.length + r.value.length) = (r.encode).1 := by
    rw [← hencL]
    exact List.take_length _
  rw [hrecBuf]
  rw [if_neg (by simp [encode_drop_4])]
  rw [LogRecordType.ofVal_toVal]
  have hkeyF : ((r.encode).1.drop 13).take r.key.length = r.key := encode_keyField r
  have hvalF : (r.encode).1.drop (13 + r.key.length) = r.value := encode_valueField r
  simp only [hkeyF, hvalF]
  by_cases hv : r.value.length > 0
  · rw [if_pos hv]
  · rw [if_neg hv]
    have hv0 : r.value = [] := List.eq_nil_of_length_eq_zero (by omega)
    rw [← hv0]

/-- Transaction marker records (`TXNSTART`, `TXNABORT`) are rejected by
`read_log_record`: its record-type whitelist is `[1, 2, 4]`. -/
theorem readLogRecord_reject_marker (file : Bytes) (r : LogRecord)
    (ht : r.type = .txnStart ∨ r.type = .txnAbort) :
    readLogRecord (file ++ (r.encode).1) file.length = none := by
  have hencL : (r.encode).1.length = 13 + r.key.length + r.value.length := by
    simp [encode_fst_length, HEADER_SIZE]
  have hdropAll : (file ++ (r.encode).1).drop file.length = (r.encode).1 :=
    List.drop_left _ _
  simp only [readLogRecord, HEADER_SIZE]
  rw [if_neg (by simp [hencL])]
  rw [if_neg (by simp [hencL]; omega)]
  rw [hdropAll]
  have htypeF : ((r.encode).1.take 13).getD 4 0 = r.type.toVal :=
    (getD_take_of_lt (by omega)).trans (encode_getD_4 r)
  rw [htypeF]
  rw [if_pos (by rcases ht with h | h <;> simp [h, LogRecordType.toVal])]

/-! ## Claim theorems -/

/-- C3, counterexample to the claim as stated: a `TXNSTART` record with
non-empty key `b"1"`, sizes within the cap and a correct CRC, appended at
offset 0 of an empty segment, is **not** read back: `read_log_record`
returns `none` because its type whitelist omits `TXNSTART`/`TXNABORT`. -/
theorem C3_counterexample :
    readLogRecord (([] : Bytes) ++ ((LogRecord.mk [49] [] .txnStart).encode).1) 0 = none :=
  readLogRecord_reject_marker [] (LogRecord.mk [49] [] .txnStart) (Or.inl rfl)

/-- C3 (amended): `read_log_record` accepts exactly the types
`NORMAL`, `DELETED`, `TXNFINISHED`.  A record of one of those three types
with non-empty key, `key_len + value_len` within the 100 MiB cap and
matching CRC is read back intact at its append offset; a `TXNSTART` or
`TXNABORT` record is rejected (`none`), as is any validation failure. -/
theorem C3_read_log_record_decoding (file : Bytes) (r : LogRecord)
    (hk : r.key ≠ []) (hcap : r.key.length + r.value.length ≤ MAX_DATA_SIZE) :
    ((r.type = .normal ∨ r.type = .deleted ∨ r.type = .txnFinished) →
      readLogRecord (file ++ (r.encode).1) file.length
        = some (r, HEADER_SIZE + r.key.length + r.value.length)) ∧
    ((r.type = .txnStart ∨ r.type = .txnAbort) →
      readLogRecord (file ++ (r.encode).1) file.length = none) :=
  ⟨fun ht => readLogRecord_readback file r ht hk hcap,
   fun ht => readLogRecord_reject_marker file r ht⟩

/-- C3 witness: a concrete `NORMAL` record `(b"a", b"b")` is read back at
offset 0 of an empty segment. -/
theorem C3_witness :
    readLogRecord (([] : Bytes) ++ ((LogRecord.mk [97] [98] .normal).encode).1)
        (List.length ([] : Bytes))
      = some (LogRecord.mk [97] [98] .normal,
          HEADER_SIZE + List.length [97] + List.length [98]) :=
  (C3_read_log_record_decoding [] (LogRecord.mk [97] [98] .normal)
      (by decide) (by decide)).1 (Or.inl rfl)

/-- C5: `LogRecord.encode` produces a buffer of length
`13 + key_len + value_len`, whose first 4 bytes are the big-endian CRC-32
of everything from offset 4 on, followed by the type byte, the big-endian
u32 key length, the big-endian u32 value length, the key bytes and the
value bytes; `LogRecord.decode` of that buffer returns the same record. -/
theorem C5_record_codec (r : LogRecord)
    (hk : r.key.length < 2 ^ 32) (hv : r.value.length < 2 ^ 32) :
    (r.encode).1.length = 13 + r.key.length + r.value.length ∧
    (r.encode).2 = 13 + r.key.length + r.value.length ∧
    (r.encode).1.take 4 = be32enc (crc32 ((r.encode).1.drop 4)) ∧
    (r.encode).1.getD 4 0 = r.type.toVal ∧
    ((r.encode).1.drop 5).take 4 = be32enc r.key.length ∧
    ((r.encode).1.drop 9).take 4 = be32enc r.value.length ∧
    ((r.encode).1.drop 13).take r.key.length = r.key ∧
    (r.encode).1.drop (13 + r.key.length) = r.value ∧
    LogRecord.decode (r.encode).1 = some r := by
  refine ⟨?_, ?_, ?_, encode_getD_4 r, encode_keySizeField r, encode_valueSizeField r,
    encode_keyField r, encode_valueField r, decode_encode r hk hv⟩
  · simp [encode_fst_length, HEADER_SIZE]
  · simp [LogRecord.encode, HEADER_SIZE]
  · rw [encode_drop_4]
    exact encode_take_4 r

/-- C5 witness: the codec round-trips on the concrete record
`(NORMAL, b"a", b"b")`. -/
theorem C5_witness :
    LogRecord.decode ((LogRecord.mk [97] [98] .normal).encode).1
      = some (LogRecord.mk [97] [98] .normal) :=
  (C5_record_codec (LogRecord.mk [97] [98] .normal)
      (by decide) (by decide)).2.2.2.2.2.2.2.2

/-- C6: `LogRecordPos.encode` yields exactly 16 bytes, little-endian
`u32 segment_id || u64 offset || u32 size`, and `LogRecordPos.decode`
recovers the same position, for all in-range fields. -/
theorem C6_pos_codec (p : LogRecordPos)
    (hf : p.fileId < 2 ^ 32) (ho : p.offset < 2 ^ 64) (hs : p.size < 2 ^ 32) :
    p.encode.length = 16 ∧
    p.encode = le32enc p.fileId ++ le64enc p.offset ++ le32enc p.size ∧
    LogRecordPos.decode p.encode = some p :=
  ⟨posEncode_length p, rfl, posDecode_posEncode p hf ho hs⟩

/-- C6 witness: the position codec round-trips on `(1, 2, 3)`. -/
theorem C6_witness :
    LogRecordPos.decode (LogRecordPos.mk 1 2 3).encode = some (LogRecordPos.mk 1 2 3) :=
  (C6_pos_codec (LogRecordPos.mk 1 2 3) (by norm_num) (by norm_num) (by norm_num)).2.2

/-! ### In-memory index

Modelled from the spec: §4.5 — the concrete ordered-index backends
(`src/coodb/index/btree.py` and friends) are not present under `src/`;
only the `Indexer` interface (`src/coodb/index/index.py`) with
`put(key, pos) → previous | None`, `get(key) → pos | None`,
`delete(key) → removed | None` is.  An insertion-ordered association
list with at most one entry per key implements that contract; ordered
iteration is not needed by the claims below. -/

abbrev Index := List (Bytes × LogRecordPos)

def idxGet : Index → Bytes → Option LogRecordPos
  | [], _ => none
  | (k', p) :: rest, k => if k' = k then some p else idxGet rest k

/-- `put` replaces in place and returns the previous position. -/
def idxPut : Index → Bytes → LogRecordPos → Index × Option LogRecordPos
  | [], k, p => ([(k, p)], none)
  | (k', p') :: rest, k, p =>
      if k' = k then ((k, p) :: rest, some p')
      else
        let r := idxPut rest k p
        ((k', p') :: r.1, r.2)

/-- `delete` removes the entry and returns the removed position. -/
def idxDelete : Index → Bytes → Index × Option LogRecordPos
  | [], _ => ([], none)
  | (k', p') :: rest, k =>
      if k' = k then (rest, some p')
      else
        let r := idxDelete rest k
        ((k', p') :: r.1, r.2)

/-! ### Database state (`src/coodb/db.py`)

One segment file is its byte contents.  The model keeps the active
segment, the immutable segments (id → contents, in creation order), the
id list, the index, `reclaim_size` and `seq_no`.  The sync counters and
fsync calls have no observable effect in the model (durability is
represented by the bytes themselves), and the mutex is implicit in the
sequential semantics. -/

structure DBState where
  activeId : Nat
  active : Bytes
  older : List (Nat × Bytes)
  fileIds : List Nat
  index : Index
  reclaimSize : Nat
  seqNo : Nat

/-- The state right after `DB.__init__` on a fresh (empty) directory:
one empty active segment with id 1. -/
def openFresh : DBState :=
  { activeId := 1, active := [], older := [], fileIds := [1],
    index := [], reclaimSize := 0, seqNo := 0 }

def lookupFile : List (Nat × Bytes) → Nat → Option Bytes
  | [], _ => none
  | (i, c) :: rest, fid => if i = fid then some c else lookupFile rest fid

/-- Resolve a position's segment: active file first, then `older_files`. -/
def resolveFile (st : DBState) (fid : Nat) : Option Bytes :=
  if fid = st.activeId then some st.active else lookupFile st.older fid

/-- `DB._append_log_record`: roll the active segment over when it has
reached `max_file_size` (new id = `file_ids[-1] + 1`), then append the
encoded record and return its position. -/
def appendLogRecord (maxFileSize : Nat) (st : DBState) (r : LogRecord) :
    LogRecordPos × DBState :=
  let st' :=
    if st.active.length ≥ maxFileSize then
      { st with
        older := st.older ++ [(st.activeId, st.active)],
        activeId := st.fileIds.getLastD 0 + 1,
        active := [],
        fileIds := st.fileIds ++ [st.fileIds.getLastD 0 + 1] }
    else st
  (⟨st'.activeId, st'.active.length, (r.encode).2⟩,
   { st' with active := st'.active ++ (r.encode).1 })

def oldSize : Option LogRecordPos → Nat
  | some p => p.size
  | none => 0

/-- `DB.put`; `none` models the `ErrKeyIsEmpty` exception. -/
def dbPut (maxFileSize : Nat) (st : DBState) (k v : Bytes) : Option DBState :=
  if k = [] then none
  else
    let a := appendLogRecord maxFileSize st ⟨k, v, .normal⟩
    let r := idxPut a.2.index k a.1
    some { a.2 with index := r.1, reclaimSize := a.2.reclaimSize + oldSize r.2 }

/-- `DB._get_value_by_position`; exceptions surface as `none`
(the caller `DB.get` catches them and returns `None`). -/
def getValueByPosition (st : DBState) (pos : LogRecordPos) : Option Bytes :=
  match resolveFile st pos.fileId with
  | none => none
  | some file =>
      match readLogRecord file pos.offset with
      | none => none
      | some (rec, _) => if rec.type = .deleted then none else some rec.value

/-- `DB.get`; `none` for a missing key (and for the empty-key error). -/
def dbGet (st : DBState) (k : Bytes) : Option Bytes :=
  if k = [] then none
  else
    match idxGet st.index k with
    | none => none
    | some pos => getValueByPosition st pos

/-- `DB.delete`: silently returns when the key is absent, otherwise
appends a `DELETED` record and removes the index entry. -/
def dbDelete (maxFileSize : Nat) (st : DBState) (k : Bytes) : Option DBState :=
  if k = [] then none
  else
    match idxGet st.index k with
    | none => some st
    | some _ =>
        let a := appendLogRecord maxFileSize st ⟨k, [], .deleted⟩
        let r := idxDelete a.2.index k
        some { a.2 with index := r.1, reclaimSize := a.2.reclaimSize + oldSize r.2 }

/-! ### Recovery (`DB.load_index_from_files`) -/

/-- Index application for one replayed record: NORMAL overwrites the entry
and reclaims any superseded position's size; DELETED removes the entry and
reclaims the removed position's size; every other type is skipped. -/
def applyRecovered (fid offset size : Nat) (r : LogRecord) (idx : Index)
    (reclaim : Nat) : Index × Nat :=
  match r.type with
  | .normal =>
      let u := idxPut idx r.key ⟨fid, offset, size⟩
      (u.1, reclaim + oldSize u.2)
  | .deleted =>
      let u := idxDelete idx r.key
      (u.1, reclaim + oldSize u.2)
  | _ => (idx, reclaim)

/-- The replay loop over one segment, with explicit fuel for structural
recursion.  Each successful read advances `offset` by at least the 13-byte
header, so fuel `file.length + 1` can never run out (see
`scanAux_fuel_irrelevant`). -/
def scanAux (fid : Nat) (file : Bytes) :
    Nat → Nat → Index → Nat → Index × Nat
  | 0, _, idx, reclaim => (idx, reclaim)
  | fuel + 1, offset, idx, reclaim =>
      match readLogRecord file offset with
      | none => (idx, reclaim)
      | some (r, size) =>
          let u := applyRecovered fid offset size r idx reclaim
          scanAux fid file fuel (offset + size) u.1 u.2

/-- Scan one segment from offset 0 (`while True` loop of
`load_index_from_files`). -/
def scanFile (fid : Nat) (file : Bytes) (idx : Index) (reclaim : Nat) :
    Index × Nat :=
  scanAux fid file (file.length + 1) 0 idx reclaim

/-- Replay every segment in id order, building the index and the
reclaimable-byte counter from scratch. -/
def loadIndexFromFiles (files : List (Nat × Bytes)) : Index × Nat :=
  files.foldl (fun acc f => scanFile f.1 f.2 acc.1 acc.2) ([], 0)

/-- Any fuel strictly larger than the remaining byte span gives the same
scan result: the loop terminates by reaching the end of valid data, never
by fuel exhaustion. -/
theorem scanAux_fuel_irrelevant (fid : Nat) (file : Bytes) :
    ∀ f₁ f₂ offset idx reclaim, file.length - offset < f₁ →
      file.length - offset < f₂ →
      scanAux fid file f₁ offset idx reclaim = scanAux fid file f₂ offset idx reclaim := by
  intro f₁
  induction f₁ using Nat.strong_induction_on with
  | _ f₁ ih =>
    intro f₂ offset idx reclaim h₁ h₂
    match f₁, f₂ with
    | 0, _ => omega
    | _ + 1, 0 => omega
    | g₁ + 1, g₂ + 1 =>
      simp only [scanAux]
      cases hr : readLogRecord file offset with
      | none => rfl
      | some v =>
        obtain ⟨r, size⟩ := v
        have hb := readLogRecord_bounds hr
        have hh : 0 < HEADER_SIZE := by simp [HEADER_SIZE]
        exact ih g₁ (by omega) g₂ (offset + size) _ _ (by omega) (by omega)

/-- The persisted directory contents of a state: immutable segments in
creation order, then the active segment. -/
def persistedFiles (st : DBState) : List (Nat × Bytes) :=
  st.older ++ [(st.activeId, st.active)]

/-- Close and reopen: the segments survive as bytes and the index is
rebuilt by replaying them in id order (`DB.__init__` →
`load_index_from_files`).  `seq_no` reloads from `seq_no.data`, written at
close with the in-memory value. -/
def reopen (st : DBState) : DBState :=
  let rec₂ := loadIndexFromFiles (persistedFiles st)
  { st with index := rec₂.1, reclaimSize := rec₂.2 }

/-! ### Batch (`src/coodb/batch.py`)

`Batch.writes` is a Python dict `key → value | None` (`None` = delete):
insertion-ordered, one entry per key, assignment replaces in place. -/

abbrev BatchWrites := List (Bytes × Option Bytes)

/-- `self.writes[key] = v`: replace the existing entry in place, else
append. -/
def writesUpd : BatchWrites → Bytes → Option Bytes → BatchWrites
  | [], k, v => [(k, v)]
  | (k', v') :: rest, k, v =>
      if k' = k then (k, v) :: rest
      else (k', v') :: writesUpd rest k v

/-- `Batch.put`; `none` models the empty-key `ValueError`.  (The
committed-batch check is control flow outside the buffered state.) -/
def batchPut (w : BatchWrites) (k v : Bytes) : Option BatchWrites :=
  if k = [] then none else some (writesUpd w k (some v))

/-- `Batch.delete`; `none` models the empty-key `ValueError`. -/
def batchDelete (w : BatchWrites) (k : Bytes) : Option BatchWrites :=
  if k = [] then none else some (writesUpd w k none)

/-- `str(txn_id).encode()`: the ASCII-decimal digits of the id. -/
def asciiDec (n : Nat) : Bytes :=
  (Nat.toDigits 10 n).map Char.toNat

/-- The data record a buffered entry commits: NORMAL for a put, DELETED
for a delete. -/
def writeRecord (kv : Bytes × Option Bytes) : LogRecord :=
  match kv.2 with
  | some v => ⟨kv.1, v, .normal⟩
  | none => ⟨kv.1, [], .deleted⟩

/-- Append all buffered data records in insertion order, collecting
`(key, position, was_put)`. -/
def commitAppendAll (maxFileSize : Nat) :
    DBState → BatchWrites → DBState × List (Bytes × LogRecordPos × Bool)
  | st, [] => (st, [])
  | st, kv :: rest =>
      let a := appendLogRecord maxFileSize st (writeRecord kv)
      let r := commitAppendAll maxFileSize a.2 rest
      (r.1, (kv.1, a.1, kv.2.isSome) :: r.2)

/-- Apply the collected index mutations in order (success path of
`Batch.commit`). -/
def commitApplyIndex : DBState → List (Bytes × LogRecordPos × Bool) → DBState
  | st, [] => st
  | st, (k, pos, isPut) :: rest =>
      let st' :=
        if isPut then
          let u := idxPut st.index k pos
          { st with index := u.1, reclaimSize := st.reclaimSize + oldSize u.2 }
        else
          let u := idxDelete st.index k
          { st with index := u.1, reclaimSize := st.reclaimSize + oldSize u.2 }
      commitApplyIndex st' rest

/-- `Batch.commit` on the success path.  `useBTree` is
`options.index_type == IndexType.BTREE`: only then is a fresh transaction
id allocated and are `TXNSTART`/`TXNFINISHED` markers written. -/
def batchCommit (maxFileSize : Nat) (useBTree : Bool) (st : DBState)
    (w : BatchWrites) : DBState :=
  if w = [] then st
  else
    let txnId := if useBTree then st.seqNo + 1 else st.seqNo
    let st₁ :=
      if txnId > 0 then
        (appendLogRecord maxFileSize st ⟨asciiDec txnId, [], .txnStart⟩).2
      else st
    let ap := commitAppendAll maxFileSize st₁ w
    let st₂ :=
      if txnId > 0 then
        { (appendLogRecord maxFileSize ap.1 ⟨asciiDec txnId, [], .txnFinished⟩).2 with
          seqNo := txnId }
      else ap.1
    commitApplyIndex st₂ ap.2

/-! ### Index helper lemmas -/

theorem idxPut_snd (idx : Index) (k : Bytes) (p : LogRecordPos) :
    (idxPut idx k p).2 = idxGet idx k := by
  induction idx with
  | nil => rfl
  | cons e rest ih =>
    simp only [idxPut, idxGet]
    split
    · rfl
    · simpa using ih

theorem idxDelete_snd (idx : Index) (k : Bytes) :
    (idxDelete idx k).2 = idxGet idx k := by
  induction idx with
  | nil => rfl
  | cons e rest ih =>
    simp only [idxDelete, idxGet]
    split
    · rfl
    · simpa using ih

/-! ## Claim theorems: recovery reclaim accounting (C7) -/

set_option maxRecDepth 40000 in
/-- C7, counterexample to the claim as stated: replaying a segment holding
`NORMAL(b"a", b"x")` (15 bytes on disk) followed by `DELETED(b"a")`
(14 bytes on disk) ends with `reclaim_size = 15` — only the superseded
position's size.  The claim predicts `15 + 14 = 29` (the `DELETED`
record's own size added as well), which the replay does not produce. -/
theorem C7_counterexample :
    (loadIndexFromFiles
        [(1, ((LogRecord.mk [97] [120] .normal).encode).1
              ++ ((LogRecord.mk [97] [] .deleted).encode).1)]).2 = 15 ∧
    (loadIndexFromFiles
        [(1, ((LogRecord.mk [97] [120] .normal).encode).1
              ++ ((LogRecord.mk [97] [] .deleted).encode).1)]).2 ≠ 15 + 14 := by
  constructor
  · decide
  · decide

/-- C7 (amended): during segment replay, a DELETED record removes the
key's index entry and increases `reclaim_size` by the previously indexed
position's size when one exists (and by nothing otherwise); the DELETED
record's own on-disk size is *not* added. -/
theorem C7_recovery_delete_reclaim (fid offset size : Nat) (r : LogRecord)
    (idx : Index) (reclaim : Nat) (ht : r.type = .deleted) :
    applyRecovered fid offset size r idx reclaim
      = ((idxDelete idx r.key).1, reclaim + oldSize (idxGet idx r.key)) := by
  simp only [applyRecovered, ht, idxDelete_snd]

/-- C7 witness: deleting the only indexed key reclaims exactly the
6 bytes of its previously indexed position. -/
theorem C7_witness :
    applyRecovered 1 20 14 (LogRecord.mk [97] [] .deleted)
        [([97], LogRecordPos.mk 1 0 6)] 0
      = ((idxDelete [([97], LogRecordPos.mk 1 0 6)] [97]).1,
         0 + oldSize (idxGet [([97], LogRecordPos.mk 1 0 6)] [97])) :=
  C7_recovery_delete_reclaim 1 20 14 (LogRecord.mk [97] [] .deleted)
    [([97], LogRecordPos.mk 1 0 6)] 0 rfl

/-! ## Claim theorems: batch atomicity across reopen (C1) -/

set_option maxRecDepth 100000 in
/-- C1 (code bug): with the default BTree index and `max_file_size = 20`,
committing the two-put batch `{b"a": b"x", b"b": b"y"}` on a fresh
database appends `TXNSTART`, `NORMAL(a)`, then rolls over to segment 2 for
`NORMAL(b)` and `TXNFINISHED`.  Both keys are visible after commit, but
after close + reopen only `b"b"` survives: recovery's segment scan hits the
`TXNSTART` record, which `read_log_record` rejects, and treats it as
end-of-segment, dropping `NORMAL(a)`; segment 2's `NORMAL(b)` still
applies.  A committed batch is half visible — not atomic. -/
theorem C1_batch_not_atomic_after_reopen :
    dbGet (batchCommit 20 true openFresh [([97], some [120]), ([98], some [121])]) [97]
        = some [120] ∧
    dbGet (batchCommit 20 true openFresh [([97], some [120]), ([98], some [121])]) [98]
        = some [121] ∧
    dbGet (reopen (batchCommit 20 true openFresh [([97], some [120]), ([98], some [121])])) [97]
        = none ∧
    dbGet (reopen (batchCommit 20 true openFresh [([97], some [120]), ([98], some [121])])) [98]
        = some [121] := by
  refine ⟨by decide, by decide, by decide, by decide⟩

/-! ## Claim theorems: interrupted merge vs reopen (C4) -/

/-- `int(s)` on a filename stem: succeeds only on (non-empty) all-digit
strings, the only shapes `load_data_files` can meet besides the scratch
stem `"merge"`, on which it raises `ValueError` (`none`). -/
def parsePyInt (s : List Char) : Option Nat :=
  if s ≠ [] ∧ s.all Char.isDigit then
    some (s.foldl (fun a c => a * 10 + (c.toNat - 48)) 0)
  else none

/-- Stable ascending insertion sort (`list.sort()` on integer ids). -/
def insertSorted (n : Nat) : List Nat → List Nat
  | [] => [n]
  | m :: rest => if n ≤ m then n :: m :: rest else m :: insertSorted n rest

def sortIds (l : List Nat) : List Nat := l.foldr insertSorted []

/-- The reserved-name prefixes excluded by `load_data_files`. -/
def reservedPrefix (f : List Char) : Bool :=
  "seq_no".data.isPrefixOf f || "hint-index".data.isPrefixOf f ||
    "merge-finished".data.isPrefixOf f

/-- `DB.load_data_files`: filter the directory listing to `*.data` files
that are not reserved, parse `int(name.split('.')[0])` for each, sort
ascending.  `none` models the uncaught `ValueError`, which makes
`DB.__init__` fail. -/
def loadDataFileIds (listing : List (List Char)) : Option (List Nat) :=
  let files := listing.filter fun f => ".data".data.isSuffixOf f && !(reservedPrefix f)
  (files.mapM fun name => parsePyInt (name.takeWhile fun c => c ≠ '.')).map sortIds

set_option maxRecDepth 4000 in
/-- C4 (code bug): a directory left by a merge interrupted before the
marker — the pre-merge segment plus the scratch file `merge.data` — makes
`load_data_files` raise (`int("merge")`), so open fails instead of
recovering the pre-merge state; without the scratch file the same listing
opens fine. -/
theorem C4_open_fails_on_merge_scratch :
    loadDataFileIds ["000000001.data".data, "merge.data".data] = none ∧
    loadDataFileIds ["000000001.data".data] = some [1] := by
  refine ⟨by decide, by decide⟩

/-! ### More index lemmas -/

theorem idxGet_put_self (idx : Index) (k : Bytes) (p : LogRecordPos) :
    idxGet (idxPut idx k p).1 k = some p := by
  induction idx with
  | nil => simp [idxPut, idxGet]
  | cons e rest ih =>
    simp only [idxPut]
    split
    · simp [idxGet]
    · rename_i hne
      simpa [idxGet, hne] using ih

theorem idxGet_put_other (idx : Index) {k k' : Bytes} (p : LogRecordPos)
    (h : k' ≠ k) : idxGet (idxPut idx k p).1 k' = idxGet idx k' := by
  induction idx with
  | nil => simp [idxPut, idxGet, Ne.symm h]
  | cons e rest ih =>
    simp only [idxPut]
    split
    · rename_i he
      simp [idxGet, he, Ne.symm h]
    · simp only [idxGet]
      split
      · rfl
      · exact ih

theorem idxGet_delete_other (idx : Index) {k k' : Bytes} (h : k' ≠ k) :
    idxGet (idxDelete idx k).1 k' = idxGet idx k' := by
  induction idx with
  | nil => simp [idxDelete]
  | cons e rest ih =>
    simp only [idxDelete]
    split
    · rename_i he
      simp [idxGet, he, Ne.symm h]
    · simp only [idxGet]
      split
      · rfl
      · exact ih

theorem idxGet_none_of_not_mem {idx : Index} {k : Bytes}
    (h : k ∉ idx.map Prod.fst) : idxGet idx k = none := by
  induction idx with
  | nil => rfl
  | cons e rest ih =>
    simp only [List.map_cons, List.mem_cons] at h
    push_neg at h
    simp only [idxGet]
    rw [if_neg (fun he => h.1 he.symm)]
    exact ih h.2

theorem idxGet_delete_self {idx : Index} {k : Bytes}
    (h : (idx.map Prod.fst).Nodup) : idxGet (idxDelete idx k).1 k = none := by
  induction idx with
  | nil => rfl
  | cons e rest ih =>
    simp only [List.map_cons, List.nodup_cons] at h
    simp only [idxDelete]
    split
    · rename_i he
      subst he
      exact idxGet_none_of_not_mem h.1
    · rename_i hne
      simp only [idxGet]
      rw [if_neg hne]
      exact ih h.2

theorem idxPut_keys (idx : Index) (k : Bytes) (p : LogRecordPos) :
    (idxPut idx k p).1.map Prod.fst
      = if k ∈ idx.map Prod.fst then idx.map Prod.fst
        else idx.map Prod.fst ++ [k] := by
  induction idx with
  | nil => simp [idxPut]
  | cons e rest ih =>
    simp only [idxPut]
    split
    · rename_i he
      subst he
      simp
    · rename_i hne
      simp only [List.map_cons, ih, List.mem_cons]
      by_cases hm : k ∈ rest.map Prod.fst
      · rw [if_pos hm, if_pos (Or.inr hm)]
      · rw [if_neg hm, if_neg (by rintro (rfl | hmem); exacts [hne rfl, hm hmem])]
        simp

theorem idxPut_nodup {idx : Index} (k : Bytes) (p : LogRecordPos)
    (h : (idx.map Prod.fst).Nodup) : ((idxPut idx k p).1.map Prod.fst).Nodup := by
  rw [idxPut_keys]
  split
  · exact h
  · rename_i hm
    simp [List.nodup_append, h, hm]

theorem idxDelete_keys_sublist (idx : Index) (k : Bytes) :
    (idxDelete idx k).1.map Prod.fst |>.Sublist (idx.map Prod.fst) := by
  induction idx with
  | nil => simp [idxDelete]
  | cons e rest ih =>
    simp only [idxDelete]
    split
    · simp
    · simp only [List.map_cons]
      exact ih.cons₂ _

theorem idxDelete_nodup {idx : Index} (k : Bytes)
    (h : (idx.map Prod.fst).Nodup) : ((idxDelete idx k).1.map Prod.fst).Nodup :=
  (idxDelete_keys_sublist idx k).nodup h

/-! ### Segment lookup lemmas -/

theorem lookupFile_append (l₁ l₂ : List (Nat × Bytes)) (i : Nat) :
    lookupFile (l₁ ++ l₂) i
      = match lookupFile l₁ i with
        | some c => some c
        | none => lookupFile l₂ i := by
  induction l₁ with
  | nil => simp [lookupFile]
  | cons e rest ih =>
    simp only [List.cons_append, lookupFile]
    split
    · rfl
    · exact ih

theorem lookupFile_none_of_not_mem {l : List (Nat × Bytes)} {i : Nat}
    (h : i ∉ l.map Prod.fst) : lookupFile l i = none := by
  induction l with
  | nil => rfl
  | cons e rest ih =>
    simp only [List.map_cons, List.mem_cons] at h
    push_neg at h
    simp only [lookupFile]
    rw [if_neg (fun he => h.1 he.symm)]
    exact ih h.2

theorem lookupFile_mem_of_some {l : List (Nat × Bytes)} {i : Nat} {c : Bytes}
    (h : lookupFile l i = some c) : i ∈ l.map Prod.fst := by
  induction l with
  | nil => exact absurd h (by simp [lookupFile])
  | cons e rest ih =>
    simp only [lookupFile] at h
    split at h
    · rename_i he
      simp [← he]
    · simp only [List.map_cons, List.mem_cons]
      exact Or.inr (ih h)

/-! ### Segment-id invariant (C8) -/

/-- Invariant of §3: segment ids are `1, 2, …, n`, the active segment has
the largest id `n`, and the immutable segments are exactly ids `1…n-1` in
order. -/
def SegInv (st : DBState) : Prop :=
  ∃ n : Nat, 0 < n ∧ st.fileIds = List.range' 1 n ∧ st.activeId = n ∧
    st.older.map Prod.fst = List.range' 1 (n - 1)

theorem segInv_openFresh : SegInv openFresh :=
  ⟨1, by norm_num, by simp [openFresh], rfl, by simp [openFresh]⟩

theorem range'_one_getLastD {n : Nat} (h : 0 < n) :
    (List.range' 1 n).getLastD 0 = n := by
  obtain ⟨m, rfl⟩ := Nat.exists_eq_add_of_lt h
  rw [Nat.zero_add, List.range'_concat, List.getLastD_concat]
  omega

theorem range'_one_succ (n : Nat) :
    List.range' 1 (n + 1) = List.range' 1 n ++ [n + 1] := by
  rw [List.range'_concat]
  simp [Nat.add_comm]

theorem appendLogRecord_seginv {m : Nat} {st : DBState} (r : LogRecord)
    (h : SegInv st) : SegInv (appendLogRecord m st r).2 := by
  obtain ⟨n, hn, hids, hact, hold⟩ := h
  simp only [appendLogRecord]
  split
  · refine ⟨n + 1, by omega, ?_, ?_, ?_⟩
    · simp only [hids, range'_one_getLastD hn, range'_one_succ]
    · show st.fileIds.getLastD 0 + 1 = n + 1
      rw [hids, range'_one_getLastD hn]
    · simp only [List.map_append, hold, hact, List.map_cons, List.map_nil]
      rw [show n + 1 - 1 = n by omega]
      obtain ⟨m', rfl⟩ := Nat.exists_eq_add_of_lt hn
      rw [Nat.zero_add, show m' + 1 - 1 = m' by omega, ← range'_one_succ]
  · exact ⟨n, hn, hids, hact, hold⟩

/-! ### Readability invariant

`ReadableNormal st k v pos`: position `pos` resolves to a segment whose
record at `pos.offset` reads back as `NORMAL (k, v)` — exactly what
`DB.get` does after the index lookup. -/

def ReadableNormal (st : DBState) (k v : Bytes) (pos : LogRecordPos) : Prop :=
  ∃ file size, resolveFile st pos.fileId = some file ∧
    readLogRecord file pos.offset = some (⟨k, v, .normal⟩, size)

theorem appendLogRecord_index (m : Nat) (st : DBState) (r : LogRecord) :
    (appendLogRecord m st r).2.index = st.index := by
  simp only [appendLogRecord]
  split <;> rfl

theorem appendLogRecord_seqNo (m : Nat) (st : DBState) (r : LogRecord) :
    (appendLogRecord m st r).2.seqNo = st.seqNo := by
  simp only [appendLogRecord]
  split <;> rfl

/-- Appending one record (data or marker) preserves the readability of
every already-readable position. -/
theorem readable_append {m : Nat} {st : DBState} (r : LogRecord) {k v : Bytes}
    {pos : LogRecordPos} (hseg : SegInv st) (h : ReadableNormal st k v pos) :
    ReadableNormal (appendLogRecord m st r).2 k v pos := by
  obtain ⟨n, hn, hids, hact, hold⟩ := hseg
  obtain ⟨file, size, hres, hread⟩ := h
  simp only [appendLogRecord]
  split
  · -- rollover: the old active segment moves to `older_files` unchanged
    unfold resolveFile at hres
    split at hres
    · -- pos was in the active segment
      rename_i hfid
      refine ⟨file, size, ?_, hread⟩
      simp only [resolveFile]
      rw [if_neg (by
        show ¬pos.fileId = st.fileIds.getLastD 0 + 1
        rw [hids, range'_one_getLastD hn, hfid, hact]
        omega)]
      show lookupFile (st.older ++ [(st.activeId, st.active)]) pos.fileId = some file
      rw [lookupFile_append]
      rw [lookupFile_none_of_not_mem (by
        rw [hold, List.mem_range'_1]
        rw [hfid, hact]
        omega)]
      simp only [lookupFile]
      rw [if_pos hfid.symm]
      exact congrArg some (by injection hres)
    · -- pos was in an immutable segment
      rename_i hfid
      have hmem := lookupFile_mem_of_some hres
      rw [hold, List.mem_range'_1] at hmem
      refine ⟨file, size, ?_, hread⟩
      simp only [resolveFile]
      rw [if_neg (by
        show ¬pos.fileId = st.fileIds.getLastD 0 + 1
        rw [hids, range'_one_getLastD hn]
        omega)]
      show lookupFile (st.older ++ [(st.activeId, st.active)]) pos.fileId = some file
      rw [lookupFile_append, hres]
  · -- no rollover: the active segment only grows
    unfold resolveFile at hres
    split at hres
    · rename_i hfid
      have hfile : file = st.active := by injection hres with hh; exact hh.symm
      subst hfile
      exact ⟨st.active ++ (r.encode).1, size, by simp [resolveFile, hfid],
        readLogRecord_append _ hread⟩
    · exact ⟨file, size, by simp only [resolveFile]; rw [if_neg (by assumption)]; exact hres,
        hread⟩

/-- The record just appended by `_append_log_record` is readable at the
returned position (NORMAL case). -/
theorem appendLogRecord_fresh_readable {m : Nat} {st : DBState} {k v : Bytes}
    (hk : k ≠ []) (hcap : k.length + v.length ≤ MAX_DATA_SIZE) :
    ReadableNormal (appendLogRecord m st ⟨k, v, .normal⟩).2 k v
      (appendLogRecord m st ⟨k, v, .normal⟩).1 := by
  simp only [appendLogRecord]
  split
  · exact ⟨[] ++ ((LogRecord.mk k v .normal).encode).1, HEADER_SIZE + k.length + v.length,
      by simp [resolveFile],
      by simpa using readLogRecord_readback [] ⟨k, v, .normal⟩ (Or.inl rfl) hk hcap⟩
  · exact ⟨st.active ++ ((LogRecord.mk k v .normal).encode).1,
      HEADER_SIZE + k.length + v.length,
      by simp [resolveFile],
      readLogRecord_readback st.active ⟨k, v, .normal⟩ (Or.inl rfl) hk hcap⟩

/-! ### The database invariant and the reference model (C2)

The reference model is the spec's §8.1 sentence itself: a map from keys to
the most recently written value.  It is a function `Bytes → Option Bytes`. -/

def ModelMap := Bytes → Option Bytes

/-- Model update for a put. -/
def mput (f : ModelMap) (k v : Bytes) : ModelMap :=
  fun k' => if k' = k then some v else f k'

/-- Model update for a delete. -/
def mdel (f : ModelMap) (k : Bytes) : ModelMap :=
  fun k' => if k' = k then none else f k'

/-- The empty model. -/
def mempty : ModelMap := fun _ => none

/-- Index/model agreement: keys absent from the model are absent from the
index; keys present point at a readable NORMAL record with the model's
value. -/
def Agrees (st : DBState) (f : ModelMap) : Prop :=
  ∀ k, (f k = none → idxGet st.index k = none) ∧
       (∀ v, f k = some v →
          ∃ pos, idxGet st.index k = some pos ∧ ReadableNormal st k v pos)

/-- The database invariant tying a state to the reference model: the
segment-id layout is sane, index keys are unique, and the index agrees
with the model. -/
def DBInv (st : DBState) (f : ModelMap) : Prop :=
  SegInv st ∧ (st.index.map Prod.fst).Nodup ∧ Agrees st f

theorem dbInv_openFresh : DBInv openFresh mempty :=
  ⟨segInv_openFresh, by simp [openFresh],
   fun _ => ⟨fun _ => rfl, fun v hv => by simp [mempty] at hv⟩⟩

/-- Updating only `index`/`reclaim_size` keeps the segment layout. -/
theorem segInv_update {st : DBState} {idx : Index} {rec : Nat} (h : SegInv st) :
    SegInv { st with index := idx, reclaimSize := rec } := by
  obtain ⟨n, hn, h1, h2, h3⟩ := h
  exact ⟨n, hn, h1, h2, h3⟩

/-- Updating only `index`/`reclaim_size` keeps every readable position. -/
theorem readable_update {st : DBState} {idx : Index} {rec : Nat} {k v : Bytes}
    {pos : LogRecordPos} (h : ReadableNormal st k v pos) :
    ReadableNormal { st with index := idx, reclaimSize := rec } k v pos := by
  obtain ⟨file, size, h1, h2⟩ := h
  exact ⟨file, size, h1, h2⟩

/-- Under the invariant, `DB.get` returns exactly the model's value. -/
theorem dbGet_of_inv {st : DBState} {f : ModelMap} (hinv : DBInv st f)
    {k : Bytes} (hk : k ≠ []) : dbGet st k = f k := by
  obtain ⟨-, -, hag⟩ := hinv
  obtain ⟨hnone, hsome⟩ := hag k
  unfold dbGet
  rw [if_neg hk]
  cases hf : f k with
  | none => rw [hnone hf]
  | some v =>
    obtain ⟨pos, hidx, file, size, hres, hread⟩ := hsome v hf
    rw [hidx]
    simp only [getValueByPosition, hres, hread]
    rfl

/-- `DB.put` preserves the invariant, moving the model to `mput`. -/
theorem dbPut_inv {m : Nat} {st : DBState} {f : ModelMap} {k v : Bytes} {st' : DBState}
    (hinv : DBInv st f) (hk : k ≠ []) (hcap : k.length + v.length ≤ MAX_DATA_SIZE)
    (hput : dbPut m st k v = some st') : DBInv st' (mput f k v) := by
  obtain ⟨hseg, hnd, hag⟩ := hinv
  unfold dbPut at hput
  rw [if_neg hk] at hput
  injection hput with hst'
  subst hst'
  refine ⟨segInv_update (appendLogRecord_seginv _ hseg), ?_, ?_⟩
  · show ((idxPut (appendLogRecord m st ⟨k, v, .normal⟩).2.index k
        (appendLogRecord m st ⟨k, v, .normal⟩).1).1.map Prod.fst).Nodup
    rw [appendLogRecord_index]
    exact idxPut_nodup _ _ hnd
  · intro k'
    by_cases hkk : k' = k
    · subst hkk
      constructor
      · intro hf
        rw [show mput f k' v k' = some v from if_pos rfl] at hf
        exact absurd hf (by simp)
      · intro v' hv'
        rw [show mput f k' v k' = some v from if_pos rfl] at hv'
        injection hv' with hv'
        subst hv'
        refine ⟨(appendLogRecord m st ⟨k', v, .normal⟩).1, ?_, ?_⟩
        · show idxGet (idxPut (appendLogRecord m st ⟨k', v, .normal⟩).2.index k'
              (appendLogRecord m st ⟨k', v, .normal⟩).1).1 k' = _
          rw [idxGet_put_self]
        · exact readable_update (appendLogRecord_fresh_readable hk hcap)
    · have hrw : idxGet (idxPut (appendLogRecord m st ⟨k, v, .normal⟩).2.index k
          (appendLogRecord m st ⟨k, v, .normal⟩).1).1 k' = idxGet st.index k' := by
        rw [idxGet_put_other _ _ hkk, appendLogRecord_index]
      obtain ⟨hnone, hsome⟩ := hag k'
      constructor
      · intro hf
        rw [show mput f k v k' = f k' from if_neg hkk] at hf
        show idxGet (idxPut (appendLogRecord m st ⟨k, v, .normal⟩).2.index k
            (appendLogRecord m st ⟨k, v, .normal⟩).1).1 k' = none
        rw [hrw]
        exact hnone hf
      · intro v' hv'
        rw [show mput f k v k' = f k' from if_neg hkk] at hv'
        obtain ⟨pos, hidx, hread⟩ := hsome v' hv'
        refine ⟨pos, ?_, readable_update (readable_append _ hseg hread)⟩
        show idxGet (idxPut (appendLogRecord m st ⟨k, v, .normal⟩).2.index k
            (appendLogRecord m st ⟨k, v, .normal⟩).1).1 k' = some pos
        rw [hrw, hidx]

/-- `DB.delete` preserves the invariant, moving the model to `mdel`. -/
theorem dbDelete_inv {m : Nat} {st : DBState} {f : ModelMap} {k : Bytes} {st' : DBState}
    (hinv : DBInv st f) (hk : k ≠ [])
    (hdel : dbDelete m st k = some st') : DBInv st' (mdel f k) := by
  obtain ⟨hseg, hnd, hag⟩ := hinv
  unfold dbDelete at hdel
  rw [if_neg hk] at hdel
  cases hidx : idxGet st.index k with
  | none =>
    rw [hidx] at hdel
    injection hdel with hst'
    subst hst'
    refine ⟨hseg, hnd, ?_⟩
    intro k'
    by_cases hkk : k' = k
    · subst hkk
      exact ⟨fun _ => hidx,
        fun v hv => by rw [show mdel f k' k' = none from if_pos rfl] at hv; cases hv⟩
    · obtain ⟨hnone, hsome⟩ := hag k'
      rw [show mdel f k k' = f k' from if_neg hkk]
      exact ⟨hnone, hsome⟩
  | some pos₀ =>
    rw [hidx] at hdel
    injection hdel with hst'
    subst hst'
    refine ⟨segInv_update (appendLogRecord_seginv _ hseg), ?_, ?_⟩
    · show ((idxDelete (appendLogRecord m st ⟨k, [], .deleted⟩).2.index k).1.map
          Prod.fst).Nodup
      rw [appendLogRecord_index]
      exact idxDelete_nodup _ hnd
    · intro k'
      by_cases hkk : k' = k
      · subst hkk
        constructor
        · intro _
          show idxGet (idxDelete (appendLogRecord m st ⟨k', [], .deleted⟩).2.index k').1 k'
              = none
          rw [appendLogRecord_index]
          exact idxGet_delete_self hnd
        · intro v hv
          rw [show mdel f k' k' = none from if_pos rfl] at hv
          cases hv
      · have hrw : idxGet (idxDelete (appendLogRecord m st ⟨k, [], .deleted⟩).2.index k).1 k'
            = idxGet st.index k' := by
          rw [idxGet_delete_other _ hkk, appendLogRecord_index]
        obtain ⟨hnone, hsome⟩ := hag k'
        constructor
        · intro hf
          rw [show mdel f k k' = f k' from if_neg hkk] at hf
          show idxGet (idxDelete (appendLogRecord m st ⟨k, [], .deleted⟩).2.index k).1 k'
              = none
          rw [hrw]
          exact hnone hf
        · intro v' hv'
          rw [show mdel f k k' = f k' from if_neg hkk] at hv'
          obtain ⟨pos, hidx', hread⟩ := hsome v' hv'
          refine ⟨pos, ?_, readable_update (readable_append _ hseg hread)⟩
          show idxGet (idxDelete (appendLogRecord m st ⟨k, [], .deleted⟩).2.index k).1 k'
              = some pos
          rw [hrw, hidx']

/-! ### Sequences of public-API operations (C2) -/

inductive DbOp where
  | put (k v : Bytes)
  | del (k : Bytes)

def runOps (m : Nat) : DBState → List DbOp → Option DBState
  | st, [] => some st
  | st, .put k v :: rest =>
      match dbPut m st k v with
      | none => none
      | some st' => runOps m st' rest
  | st, .del k :: rest =>
      match dbDelete m st k with
      | none => none
      | some st' => runOps m st' rest

/-- The reference semantics of the spec sentence: the map from each key to
its most recently written value (`None` after a delete). -/
def runModel : ModelMap → List DbOp → ModelMap
  | f, [] => f
  | f, .put k v :: rest => runModel (mput f k v) rest
  | f, .del k :: rest => runModel (mdel f k) rest

/-- Well-formedness of one operation: non-empty key, and for a put the
record must fit under the 100 MiB read-back cap. -/
def opOk : DbOp → Prop
  | .put k v => k ≠ [] ∧ k.length + v.length ≤ MAX_DATA_SIZE
  | .del k => k ≠ []

theorem runOps_inv {m : Nat} {st : DBState} {f : ModelMap} {ops : List DbOp}
    (hinv : DBInv st f) (hops : ∀ op ∈ ops, opOk op) :
    ∃ st', runOps m st ops = some st' ∧ DBInv st' (runModel f ops) := by
  induction ops generalizing st f with
  | nil => exact ⟨st, rfl, hinv⟩
  | cons op rest ih =>
    have hrest : ∀ op ∈ rest, opOk op := fun o ho => hops o (List.mem_cons_of_mem _ ho)
    cases op with
    | put k v =>
      obtain ⟨hk, hcap⟩ := hops _ (List.mem_cons_self _ _)
      obtain ⟨st₁, hst₁⟩ : ∃ st₁, dbPut m st k v = some st₁ := by
        unfold dbPut
        rw [if_neg hk]
        exact ⟨_, rfl⟩
      obtain ⟨st', h1, h2⟩ := ih (dbPut_inv hinv hk hcap hst₁) hrest
      exact ⟨st', by simp only [runOps, hst₁]; exact h1, h2⟩
    | del k =>
      have hk := hops _ (List.mem_cons_self _ _)
      obtain ⟨st₁, hst₁⟩ : ∃ st₁, dbDelete m st k = some st₁ := by
        unfold dbDelete
        rw [if_neg hk]
        cases idxGet st.index k
        · exact ⟨_, rfl⟩
        · exact ⟨_, rfl⟩
      obtain ⟨st', h1, h2⟩ := ih (dbDelete_inv hinv hk hst₁) hrest
      exact ⟨st', by simp only [runOps, hst₁]; exact h1, h2⟩

/-- C2 (amended): for every sequence of put/delete operations with
non-empty keys whose records fit under the 100 MiB read-back cap, and any
`max_file_size`, the run succeeds and `get(k)` afterwards returns exactly
the most recently written value for `k` — `None` when the last operation
on `k` was a delete or `k` was never written. -/
theorem C2_round_trip (m : Nat) (ops : List DbOp) (hops : ∀ op ∈ ops, opOk op) :
    ∃ st', runOps m openFresh ops = some st' ∧
      ∀ k, k ≠ [] → dbGet st' k = runModel mempty ops k := by
  obtain ⟨st', h1, h2⟩ := runOps_inv dbInv_openFresh hops
  exact ⟨st', h1, fun k hk => dbGet_of_inv h2 hk⟩

/-- C2 witness: the spec's S1 scenario (without the reopen):
`put(a,1) put(b,2) put(a,3) delete(b)` gives `get(a) = 3`, `get(b) = None`. -/
theorem C2_witness :
    ∃ st', runOps 64 openFresh
        [DbOp.put [97] [49], DbOp.put [98] [50], DbOp.put [97] [51], DbOp.del [98]]
        = some st' ∧
      ∀ k, k ≠ [] → dbGet st' k
        = runModel mempty
            [DbOp.put [97] [49], DbOp.put [98] [50], DbOp.put [97] [51], DbOp.del [98]] k := by
  refine C2_round_trip 64 _ ?_
  intro op hop
  rcases List.mem_cons.mp hop with rfl | hop
  · exact ⟨by decide, by decide⟩
  rcases List.mem_cons.mp hop with rfl | hop
  · exact ⟨by decide, by decide⟩
  rcases List.mem_cons.mp hop with rfl | hop
  · exact ⟨by decide, by decide⟩
  rcases List.mem_cons.mp hop with rfl | hop
  · exact (by decide : ([98] : Bytes) ≠ [])
  · cases hop

/-- A record whose `key_len + value_len` exceeds the 100 MiB cap is
rejected by `read_log_record` even right after being appended. -/
theorem readLogRecord_cap_reject (file : Bytes) (r : LogRecord)
    (hklt : r.key.length < 2 ^ 32) (hvlt : r.value.length < 2 ^ 32)
    (hcap : r.key.length + r.value.length > MAX_DATA_SIZE) :
    readLogRecord (file ++ (r.encode).1) file.length = none := by
  have hencL : (r.encode).1.length = 13 + r.key.length + r.value.length := by
    simp [encode_fst_length, HEADER_SIZE]
  have hdropAll : (file ++ (r.encode).1).drop file.length = (r.encode).1 :=
    List.drop_left _ _
  simp only [readLogRecord, HEADER_SIZE]
  rw [if_neg (by simp [hencL])]
  rw [if_neg (by simp [hencL]; omega)]
  rw [hdropAll]
  have hksF : (((r.encode).1.take 13).drop 5).take 4 = be32enc r.key.length := by
    rw [List.drop_take, List.take_take, (show (4 : Nat) ⊓ (13 - 5) = 4 from rfl)]
    exact encode_keySizeField r
  have hvsF : (((r.encode).1.take 13).drop 9).take 4 = be32enc r.value.length := by
    rw [List.drop_take, List.take_take, (show (4 : Nat) ⊓ (13 - 9) = 4 from rfl)]
    exact encode_valueSizeField r
  rw [hksF, hvsF, be32_roundtrip hklt, be32_roundtrip hvlt]
  split
  · rfl
  · rw [if_pos (Or.inr hcap)]

/-- Reading back a freshly appended over-cap record through
`_get_value_by_position` yields `None`. -/
theorem getValueByPosition_append_cap (st₀ : DBState) (r : LogRecord) (sz : Nat)
    (hklt : r.key.length < 2 ^ 32) (hvlt : r.value.length < 2 ^ 32)
    (hcap : r.key.length + r.value.length > MAX_DATA_SIZE) :
    getValueByPosition { st₀ with active := st₀.active ++ (r.encode).1 }
      ⟨st₀.activeId, st₀.active.length, sz⟩ = none := by
  show (match resolveFile { st₀ with active := st₀.active ++ (r.encode).1 } st₀.activeId with
    | none => none
    | some file =>
        match readLogRecord file st₀.active.length with
        | none => none
        | some (rec, _) => if rec.type = .deleted then none else some rec.value) = none
  have h1 : resolveFile { st₀ with active := st₀.active ++ (r.encode).1 } st₀.activeId
      = some (st₀.active ++ (r.encode).1) := by simp [resolveFile]
  have h2 : readLogRecord (st₀.active ++ (r.encode).1) st₀.active.length = none :=
    readLogRecord_cap_reject st₀.active r hklt hvlt hcap
  simp only [h1, h2]

/-- `_get_value_by_position` ignores `index`/`reclaim_size`. -/
theorem getValueByPosition_update (st : DBState) (idx : Index) (rec : Nat)
    (pos : LogRecordPos) :
    getValueByPosition { st with index := idx, reclaimSize := rec } pos
      = getValueByPosition st pos := rfl

/-- `DB.put` of an over-cap record succeeds but leaves the key unreadable:
`DB.get` returns `None` immediately afterwards. -/
theorem dbPut_cap_get_none {m : Nat} {st : DBState} {k v : Bytes} {st' : DBState}
    (hk : k ≠ []) (hklt : k.length < 2 ^ 32) (hvlt : v.length < 2 ^ 32)
    (hcap : k.length + v.length > MAX_DATA_SIZE)
    (hput : dbPut m st k v = some st') :
    dbGet st' k = none := by
  unfold dbPut at hput
  rw [if_neg hk] at hput
  injection hput with hst'
  subst hst'
  unfold dbGet
  rw [if_neg hk]
  dsimp only
  rw [idxGet_put_self]
  dsimp only
  rw [getValueByPosition_update]
  simp only [appendLogRecord]
  generalize (if st.active.length ≥ m then
      { st with
        older := st.older ++ [(st.activeId, st.active)],
        activeId := st.fileIds.getLastD 0 + 1,
        active := [],
        fileIds := st.fileIds ++ [st.fileIds.getLastD 0 + 1] }
    else st) = st₀
  exact getValueByPosition_append_cap st₀ ⟨k, v, .normal⟩ _ hklt hvlt hcap

/-- C2, counterexample to the claim as stated: a single put of key `b"a"`
with a 100 MiB value succeeds, but `get` then returns `None`: the indexed
position fails `read_log_record`'s `key_size + value_size > 100 MiB`
sanity check, so the freshly written value is unreadable. -/
theorem C2_counterexample :
    ∃ st', dbPut 1024 openFresh [97] (List.replicate MAX_DATA_SIZE 0) = some st' ∧
      dbGet st' [97] = none := by
  obtain ⟨st', hst'⟩ :
      ∃ st', dbPut 1024 openFresh [97] (List.replicate MAX_DATA_SIZE 0) = some st' := by
    unfold dbPut
    rw [if_neg (by decide)]
    exact ⟨_, rfl⟩
  refine ⟨st', hst', dbPut_cap_get_none (by decide) (by decide) ?_ ?_ hst'⟩
  · rw [List.length_replicate]
    norm_num [MAX_DATA_SIZE]
  · rw [List.length_replicate]
    simp

/-! ### Segment-id invariant across the write paths (C8) -/

theorem segInv_seqNo {st : DBState} {t : Nat} (h : SegInv st) :
    SegInv { st with seqNo := t } := by
  obtain ⟨n, hn, h1, h2, h3⟩ := h
  exact ⟨n, hn, h1, h2, h3⟩

theorem dbPut_seginv {m : Nat} {st : DBState} {k v : Bytes} {st' : DBState}
    (h : SegInv st) (hput : dbPut m st k v = some st') : SegInv st' := by
  unfold dbPut at hput
  split at hput
  · cases hput
  · injection hput with hst'
    subst hst'
    exact segInv_update (appendLogRecord_seginv _ h)

theorem dbDelete_seginv {m : Nat} {st : DBState} {k : Bytes} {st' : DBState}
    (h : SegInv st) (hdel : dbDelete m st k = some st') : SegInv st' := by
  unfold dbDelete at hdel
  split at hdel
  · cases hdel
  · split at hdel
    · injection hdel with hst'
      subst hst'
      exact h
    · injection hdel with hst'
      subst hst'
      exact segInv_update (appendLogRecord_seginv _ h)

theorem commitAppendAll_seginv {m : Nat} {st : DBState} {w : BatchWrites}
    (h : SegInv st) : SegInv (commitAppendAll m st w).1 := by
  induction w generalizing st with
  | nil => exact h
  | cons kv rest ih => exact ih (appendLogRecord_seginv _ h)

theorem commitApplyIndex_seginv {st : DBState}
    {ps : List (Bytes × LogRecordPos × Bool)}
    (h : SegInv st) : SegInv (commitApplyIndex st ps) := by
  induction ps generalizing st with
  | nil => exact h
  | cons e rest ih =>
    obtain ⟨k, pos, isPut⟩ := e
    simp only [commitApplyIndex]
    split
    · exact ih (segInv_update h)
    · exact ih (segInv_update h)

theorem batchCommit_seginv {m : Nat} {useB : Bool} {st : DBState} {w : BatchWrites}
    (h : SegInv st) : SegInv (batchCommit m useB st w) := by
  unfold batchCommit
  split
  · exact h
  · apply commitApplyIndex_seginv
    generalize (if useB = true then st.seqNo + 1 else st.seqNo) = t
    by_cases ht : t > 0
    · simp only [if_pos ht]
      exact segInv_seqNo (appendLogRecord_seginv _
        (commitAppendAll_seginv (appendLogRecord_seginv _ h)))
    · simp only [if_neg ht]
      exact commitAppendAll_seginv h

/-- C8: after a fresh open the segment-id layout is sane; the layout means
ids are exactly `1…n` (contiguous, strictly increasing from 1) with the
active segment holding the largest id; every put, delete and batch commit
preserves it; and a rollover allocates the new active id as
`file_ids[-1] + 1`, strictly above every existing id. -/
theorem C8_segment_id_invariant (m : Nat) :
    SegInv openFresh ∧
    (∀ st, SegInv st →
      st.fileIds = List.range' 1 st.fileIds.length ∧
      st.activeId ∈ st.fileIds ∧
      ∀ i ∈ st.fileIds, i ≤ st.activeId) ∧
    (∀ st k v st', SegInv st → dbPut m st k v = some st' → SegInv st') ∧
    (∀ st k st', SegInv st → dbDelete m st k = some st' → SegInv st') ∧
    (∀ st useB w, SegInv st → SegInv (batchCommit m useB st w)) ∧
    (∀ st r, SegInv st → m ≤ st.active.length →
      (appendLogRecord m st r).2.activeId = st.fileIds.getLastD 0 + 1 ∧
      ∀ i ∈ st.fileIds, i < (appendLogRecord m st r).2.activeId) := by
  refine ⟨segInv_openFresh, ?_, fun _ _ _ _ => dbPut_seginv,
    fun _ _ _ => dbDelete_seginv, fun _ _ _ => batchCommit_seginv, ?_⟩
  · rintro st ⟨n, hn, hids, hact, -⟩
    refine ⟨?_, ?_, ?_⟩
    · rw [hids, List.length_range']
    · rw [hids, hact, List.mem_range'_1]
      omega
    · intro i hi
      rw [hids, List.mem_range'_1] at hi
      omega
  · rintro st r ⟨n, hn, hids, hact, -⟩ hroll
    have hite : (appendLogRecord m st r).2.activeId = st.fileIds.getLastD 0 + 1 := by
      simp only [appendLogRecord]
      rw [if_pos hroll]
    refine ⟨hite, ?_⟩
    intro i hi
    rw [hite, hids, range'_one_getLastD hn]
    rw [hids, List.mem_range'_1] at hi
    omega

/-- C8 witness: the invariant holds on a fresh open and survives a
concrete put. -/
theorem C8_witness :
    SegInv openFresh ∧
    ∃ st', dbPut 64 openFresh [97] [120] = some st' ∧ SegInv st' := by
  have h := C8_segment_id_invariant 64
  obtain ⟨st', hst'⟩ : ∃ st', dbPut 64 openFresh [97] [120] = some st' := by
    unfold dbPut
    rw [if_neg (by decide)]
    exact ⟨_, rfl⟩
  exact ⟨h.1, st', hst', h.2.2.1 openFresh [97] [120] st' h.1 hst'⟩

/-! ### Batch buffering and commit correctness (C10) -/

/-- Lookup in a batch buffer: the buffered operation for a key
(`some (some v)` = pending put, `some none` = pending delete). -/
def wLookup : BatchWrites → Bytes → Option (Option Bytes)
  | [], _ => none
  | (k', v) :: rest, k => if k' = k then some v else wLookup rest k

theorem wLookup_upd_self (w : BatchWrites) (k : Bytes) (x : Option Bytes) :
    wLookup (writesUpd w k x) k = some x := by
  induction w with
  | nil => simp [writesUpd, wLookup]
  | cons e rest ih =>
    simp only [writesUpd]
    split
    · simp [wLookup]
    · rename_i hne
      simpa [wLookup, hne] using ih

theorem wLookup_upd_other (w : BatchWrites) {k k' : Bytes} (x : Option Bytes)
    (h : k' ≠ k) : wLookup (writesUpd w k x) k' = wLookup w k' := by
  induction w with
  | nil => simp [writesUpd, wLookup, Ne.symm h]
  | cons e rest ih =>
    simp only [writesUpd]
    split
    · rename_i he
      simp [wLookup, he, Ne.symm h]
    · simp only [wLookup]
      split
      · rfl
      · exact ih

theorem writesUpd_keys (w : BatchWrites) (k : Bytes) (x : Option Bytes) :
    (writesUpd w k x).map Prod.fst
      = if k ∈ w.map Prod.fst then w.map Prod.fst else w.map Prod.fst ++ [k] := by
  induction w with
  | nil => simp [writesUpd]
  | cons e rest ih =>
    simp only [writesUpd]
    split
    · rename_i he
      subst he
      simp
    · rename_i hne
      simp only [List.map_cons, ih, List.mem_cons]
      by_cases hm : k ∈ rest.map Prod.fst
      · rw [if_pos hm, if_pos (Or.inr hm)]
      · rw [if_neg hm, if_neg (by rintro (rfl | hmem); exacts [hne rfl, hm hmem])]
        simp

theorem writesUpd_nodup {w : BatchWrites} (k : Bytes) (x : Option Bytes)
    (h : (w.map Prod.fst).Nodup) : ((writesUpd w k x).map Prod.fst).Nodup := by
  rw [writesUpd_keys]
  split
  · exact h
  · rename_i hm
    simp [List.nodup_append, h, hm]

/-- Well-formedness of one buffered entry: non-empty key; puts fit under
the read-back cap. -/
def kvOk (kv : Bytes × Option Bytes) : Prop :=
  kv.1 ≠ [] ∧ ∀ v, kv.2 = some v → kv.1.length + v.length ≤ MAX_DATA_SIZE

/-- The collected `(key, position, was_put)` triples line up with the
buffered entries, and every put's position reads back its value. -/
def PsOk (st : DBState) : List (Bytes × LogRecordPos × Bool) → BatchWrites → Prop
  | [], [] => True
  | (k, pos, b) :: ps, kv :: w =>
      k = kv.1 ∧ b = kv.2.isSome ∧
      (∀ v, kv.2 = some v → ReadableNormal st k v pos) ∧ PsOk st ps w
  | _, _ => False

theorem dbInv_append {m : Nat} {st : DBState} {f : ModelMap} (r : LogRecord)
    (hinv : DBInv st f) : DBInv (appendLogRecord m st r).2 f := by
  obtain ⟨hseg, hnd, hag⟩ := hinv
  refine ⟨appendLogRecord_seginv _ hseg, ?_, ?_⟩
  · rw [appendLogRecord_index]
    exact hnd
  · intro k
    obtain ⟨hnone, hsome⟩ := hag k
    constructor
    · intro hf
      rw [appendLogRecord_index]
      exact hnone hf
    · intro v hv
      obtain ⟨pos, hidx, hread⟩ := hsome v hv
      refine ⟨pos, ?_, readable_append _ hseg hread⟩
      rw [appendLogRecord_index]
      exact hidx

theorem psok_append {m : Nat} {st : DBState} (r : LogRecord)
    {ps : List (Bytes × LogRecordPos × Bool)} {w : BatchWrites}
    (hseg : SegInv st) (h : PsOk st ps w) :
    PsOk (appendLogRecord m st r).2 ps w := by
  induction ps generalizing w with
  | nil =>
    cases w with
    | nil => trivial
    | cons kv w => exact absurd h (by simp [PsOk])
  | cons e ps ih =>
    obtain ⟨k, pos, b⟩ := e
    cases w with
    | nil => exact absurd h (by simp [PsOk])
    | cons kv w =>
      obtain ⟨h1, h2, h3, h4⟩ := h
      exact ⟨h1, h2, fun v hv => readable_append _ hseg (h3 v hv), ih h4⟩

theorem commitAppendAll_readable {m : Nat} (st : DBState) {w : BatchWrites}
    {k v : Bytes} {pos : LogRecordPos} (hseg : SegInv st)
    (h : ReadableNormal st k v pos) :
    ReadableNormal (commitAppendAll m st w).1 k v pos := by
  induction w generalizing st with
  | nil => exact h
  | cons kv rest ih =>
    exact ih _ (appendLogRecord_seginv _ hseg) (readable_append _ hseg h)

theorem commitAppendAll_psok {m : Nat} {st : DBState}
    {ps : List (Bytes × LogRecordPos × Bool)} {w₀ : BatchWrites} (w : BatchWrites)
    (hseg : SegInv st) (h : PsOk st ps w₀) :
    PsOk (commitAppendAll m st w).1 ps w₀ := by
  induction w generalizing st with
  | nil => exact h
  | cons kv rest ih =>
    exact ih (appendLogRecord_seginv _ hseg) (psok_append _ hseg h)

/-- Phase 3 of `Batch.commit`: appending every buffered record preserves
the invariant (the index is untouched) and yields position triples that
line up with the buffer, with every put position readable. -/
theorem commitAppendAll_spec {m : Nat} {st : DBState} {f : ModelMap}
    {w : BatchWrites} (hinv : DBInv st f) (hok : ∀ kv ∈ w, kvOk kv) :
    DBInv (commitAppendAll m st w).1 f ∧
    PsOk (commitAppendAll m st w).1 (commitAppendAll m st w).2 w := by
  induction w generalizing st f with
  | nil => exact ⟨hinv, trivial⟩
  | cons kv rest ih =>
    obtain ⟨hk, hcap⟩ := hok kv (List.mem_cons_self _ _)
    have hrest : ∀ e ∈ rest, kvOk e := fun e he => hok e (List.mem_cons_of_mem _ he)
    have hinv' : DBInv (appendLogRecord m st (writeRecord kv)).2 f :=
      dbInv_append _ hinv
    obtain ⟨ih1, ih2⟩ := ih hinv' hrest
    refine ⟨ih1, ?_, rfl, ?_, ih2⟩
    · rfl
    · intro v hv
      have hw : writeRecord kv = ⟨kv.1, v, .normal⟩ := by
        simp [writeRecord, hv]
      have hfresh : ReadableNormal (appendLogRecord m st (writeRecord kv)).2 kv.1 v
          (appendLogRecord m st (writeRecord kv)).1 := by
        rw [hw]
        exact appendLogRecord_fresh_readable hk (hcap v hv)
      exact commitAppendAll_readable (appendLogRecord m st (writeRecord kv)).2
        (w := rest) hinv'.1 hfresh

/-- The model image of committing a batch buffer. -/
def applyWrites : ModelMap → BatchWrites → ModelMap
  | f, [] => f
  | f, (k, some v) :: rest => applyWrites (mput f k v) rest
  | f, (k, none) :: rest => applyWrites (mdel f k) rest

theorem applyWrites_not_mem {f : ModelMap} {w : BatchWrites} {k : Bytes}
    (h : k ∉ w.map Prod.fst) : applyWrites f w k = f k := by
  induction w generalizing f with
  | nil => rfl
  | cons kv rest ih =>
    obtain ⟨k', x⟩ := kv
    simp only [List.map_cons, List.mem_cons] at h
    push_neg at h
    cases x with
    | some v =>
      simp only [applyWrites]
      rw [ih h.2]
      exact if_neg h.1
    | none =>
      simp only [applyWrites]
      rw [ih h.2]
      exact if_neg h.1

theorem applyWrites_lookup {f : ModelMap} {w : BatchWrites} {k : Bytes}
    {x : Option Bytes} (hnd : (w.map Prod.fst).Nodup) (hmem : (k, x) ∈ w) :
    applyWrites f w k = x := by
  induction w generalizing f with
  | nil => cases hmem
  | cons kv rest ih =>
    obtain ⟨k', x'⟩ := kv
    simp only [List.map_cons, List.nodup_cons] at hnd
    rcases List.mem_cons.mp hmem with heq | hmem'
    · injection heq with h1 h2
      subst h1
      subst h2
      cases x with
      | some v =>
        simp only [applyWrites]
        rw [applyWrites_not_mem hnd.1]
        exact if_pos rfl
      | none =>
        simp only [applyWrites]
        rw [applyWrites_not_mem hnd.1]
        exact if_pos rfl
    · have hk : k ≠ k' := by
        intro hkk
        subst hkk
        exact hnd.1 (List.mem_map_of_mem Prod.fst hmem')
      cases x' with
      | some v' => exact ih hnd.2 hmem'
      | none => exact ih hnd.2 hmem'

theorem readable_seqNo {st : DBState} {t : Nat} {k v : Bytes} {pos : LogRecordPos}
    (h : ReadableNormal st k v pos) :
    ReadableNormal { st with seqNo := t } k v pos := by
  obtain ⟨file, size, h1, h2⟩ := h
  exact ⟨file, size, h1, h2⟩

theorem dbInv_seqNo {st : DBState} {f : ModelMap} {t : Nat} (h : DBInv st f) :
    DBInv { st with seqNo := t } f := by
  obtain ⟨hseg, hnd, hag⟩ := h
  refine ⟨segInv_seqNo hseg, hnd, fun k => ⟨(hag k).1, fun v hv => ?_⟩⟩
  obtain ⟨pos, h1, h2⟩ := (hag k).2 v hv
  exact ⟨pos, h1, readable_seqNo h2⟩

theorem psok_seqNo {st : DBState} {t : Nat}
    {ps : List (Bytes × LogRecordPos × Bool)} {w : BatchWrites}
    (h : PsOk st ps w) : PsOk { st with seqNo := t } ps w := by
  induction ps generalizing w with
  | nil =>
    cases w with
    | nil => trivial
    | cons kv w => exact absurd h (by simp [PsOk])
  | cons e ps ih =>
    obtain ⟨k, pos, b⟩ := e
    cases w with
    | nil => exact absurd h (by simp [PsOk])
    | cons kv w =>
      obtain ⟨h1, h2, h3, h4⟩ := h
      exact ⟨h1, h2, fun v hv => readable_seqNo (h3 v hv), ih h4⟩

theorem psok_update {st : DBState} {idx : Index} {rec : Nat}
    {ps : List (Bytes × LogRecordPos × Bool)} {w : BatchWrites}
    (h : PsOk st ps w) : PsOk { st with index := idx, reclaimSize := rec } ps w := by
  induction ps generalizing w with
  | nil =>
    cases w with
    | nil => trivial
    | cons kv w => exact absurd h (by simp [PsOk])
  | cons e ps ih =>
    obtain ⟨k, pos, b⟩ := e
    cases w with
    | nil => exact absurd h (by simp [PsOk])
    | cons kv w =>
      obtain ⟨h1, h2, h3, h4⟩ := h
      exact ⟨h1, h2, fun v hv => readable_update (h3 v hv), ih h4⟩

/-- Phase 5 of `Batch.commit`: applying the collected index mutations in
order moves the model over the buffered operations. -/
theorem commitApplyIndex_inv {st : DBState} {f : ModelMap}
    {ps : List (Bytes × LogRecordPos × Bool)} {w : BatchWrites}
    (hinv : DBInv st f) (hps : PsOk st ps w) :
    DBInv (commitApplyIndex st ps) (applyWrites f w) := by
  induction ps generalizing st f w with
  | nil =>
    cases w with
    | nil => exact hinv
    | cons kv w => exact absurd hps (by simp [PsOk])
  | cons e ps ih =>
    obtain ⟨k, pos, b⟩ := e
    cases w with
    | nil => exact absurd hps (by simp [PsOk])
    | cons kv w =>
      obtain ⟨hk, hb, hread, hps'⟩ := hps
      obtain ⟨hseg, hnd, hag⟩ := hinv
      obtain ⟨k₀, x⟩ := kv
      simp only at hk
      subst hk
      simp only [commitApplyIndex]
      cases x with
      | some v =>
        rw [show b = true from hb]
        rw [if_pos rfl]
        simp only [applyWrites]
        refine ih ⟨segInv_update hseg, ?_, ?_⟩ (psok_update hps')
        · show ((idxPut st.index k pos).1.map Prod.fst).Nodup
          exact idxPut_nodup _ _ hnd
        · intro k'
          by_cases hkk : k' = k
          · subst hkk
            refine ⟨fun hf => ?_, fun v' hv' => ?_⟩
            · rw [show mput f k' v k' = some v from if_pos rfl] at hf
              cases hf
            · rw [show mput f k' v k' = some v from if_pos rfl] at hv'
              injection hv' with hv'
              subst hv'
              refine ⟨pos, ?_, readable_update (hread v rfl)⟩
              show idxGet (idxPut st.index k' pos).1 k' = some pos
              rw [idxGet_put_self]
          · obtain ⟨hnone, hsome⟩ := hag k'
            refine ⟨fun hf => ?_, fun v' hv' => ?_⟩
            · rw [show mput f k v k' = f k' from if_neg hkk] at hf
              show idxGet (idxPut st.index k pos).1 k' = none
              rw [idxGet_put_other _ _ hkk]
              exact hnone hf
            · rw [show mput f k v k' = f k' from if_neg hkk] at hv'
              obtain ⟨pos', h1, h2⟩ := hsome v' hv'
              refine ⟨pos', ?_, readable_update h2⟩
              show idxGet (idxPut st.index k pos).1 k' = some pos'
              rw [idxGet_put_other _ _ hkk]
              exact h1
      | none =>
        rw [show b = false from hb]
        rw [if_neg (by simp)]
        simp only [applyWrites]
        refine ih ⟨segInv_update hseg, ?_, ?_⟩ (psok_update hps')
        · show ((idxDelete st.index k).1.map Prod.fst).Nodup
          exact idxDelete_nodup _ hnd
        · intro k'
          by_cases hkk : k' = k
          · subst hkk
            refine ⟨fun _ => ?_, fun v' hv' => ?_⟩
            · show idxGet (idxDelete st.index k').1 k' = none
              exact idxGet_delete_self hnd
            · rw [show mdel f k' k' = none from if_pos rfl] at hv'
              cases hv'
          · obtain ⟨hnone, hsome⟩ := hag k'
            refine ⟨fun hf => ?_, fun v' hv' => ?_⟩
            · rw [show mdel f k k' = f k' from if_neg hkk] at hf
              show idxGet (idxDelete st.index k).1 k' = none
              rw [idxGet_delete_other _ hkk]
              exact hnone hf
            · rw [show mdel f k k' = f k' from if_neg hkk] at hv'
              obtain ⟨pos', h1, h2⟩ := hsome v' hv'
              refine ⟨pos', ?_, readable_update h2⟩
              show idxGet (idxDelete st.index k).1 k' = some pos'
              rw [idxGet_delete_other _ hkk]
              exact h1

/-- `Batch.commit` (success path) moves the database from model `f` to
`applyWrites f w`. -/
theorem batchCommit_inv {m : Nat} {useB : Bool} {st : DBState} {f : ModelMap}
    {w : BatchWrites} (hinv : DBInv st f) (hok : ∀ kv ∈ w, kvOk kv) :
    DBInv (batchCommit m useB st w) (applyWrites f w) := by
  unfold batchCommit
  split
  · rename_i hw
    subst hw
    exact hinv
  · generalize (if useB = true then st.seqNo + 1 else st.seqNo) = t
    by_cases ht : t > 0
    · simp only [if_pos ht]
      have hinv₁ : DBInv (appendLogRecord m st ⟨asciiDec t, [], .txnStart⟩).2 f :=
        dbInv_append _ hinv
      obtain ⟨hinv₂, hps₂⟩ := commitAppendAll_spec (w := w) hinv₁ hok
      have hinv₃ := dbInv_append (m := m)
        (LogRecord.mk (asciiDec t) [] .txnFinished) hinv₂
      have hps₃ := psok_append (m := m)
        (LogRecord.mk (asciiDec t) [] .txnFinished) hinv₂.1 hps₂
      exact commitApplyIndex_inv (dbInv_seqNo hinv₃) (psok_seqNo hps₃)
    · simp only [if_neg ht]
      obtain ⟨hinv₂, hps₂⟩ := commitAppendAll_spec (w := w) hinv hok
      exact commitApplyIndex_inv hinv₂ hps₂

theorem commitAppendAll_length (m : Nat) (st : DBState) (w : BatchWrites) :
    (commitAppendAll m st w).2.length = w.length := by
  induction w generalizing st with
  | nil => rfl
  | cons kv rest ih => simp [commitAppendAll, ih]

theorem commitAppendAll_keys (m : Nat) (st : DBState) (w : BatchWrites) :
    (commitAppendAll m st w).2.map (fun e => e.1) = w.map Prod.fst := by
  induction w generalizing st with
  | nil => rfl
  | cons kv rest ih => simp [commitAppendAll, ih]

/-- C10: (1) `Batch.put`/`Batch.delete` buffer at most one pending
operation per key — a later operation on the same key replaces the earlier
one in place, leaving other keys untouched and keeping buffer keys unique;
(2) `Batch.commit` appends exactly one data record per buffered (distinct)
key, in buffer order; (3) after commit each buffered key's state reflects
the last operation buffered for it: `get` returns the put value, or `None`
after a buffered delete. -/
theorem C10_batch_buffering (m : Nat) (useB : Bool) (st : DBState) (f : ModelMap)
    (w : BatchWrites) (hinv : DBInv st f) (hnd : (w.map Prod.fst).Nodup)
    (hok : ∀ kv ∈ w, kvOk kv) :
    (∀ (w₀ : BatchWrites) (k : Bytes) (x : Option Bytes),
      wLookup (writesUpd w₀ k x) k = some x ∧
      (∀ k', k' ≠ k → wLookup (writesUpd w₀ k x) k' = wLookup w₀ k') ∧
      ((w₀.map Prod.fst).Nodup → ((writesUpd w₀ k x).map Prod.fst).Nodup)) ∧
    (commitAppendAll m st w).2.length = w.length ∧
    (commitAppendAll m st w).2.map (fun e => e.1) = w.map Prod.fst ∧
    (∀ k x, (k, x) ∈ w → dbGet (batchCommit m useB st w) k = x) := by
  refine ⟨?_, commitAppendAll_length m st w, commitAppendAll_keys m st w, ?_⟩
  · intro w₀ k x
    exact ⟨wLookup_upd_self w₀ k x, fun k' hk' => wLookup_upd_other w₀ x hk',
      writesUpd_nodup k x⟩
  · intro k x hmem
    have hk : k ≠ [] := (hok (k, x) hmem).1
    have hinv' : DBInv (batchCommit m useB st w) (applyWrites f w) :=
      batchCommit_inv hinv hok
    rw [dbGet_of_inv hinv' hk]
    exact applyWrites_lookup hnd hmem

/-- C10 witness: committing the one-entry batch `{b"a": b"x"}` on a fresh
database makes `get(b"a")` return `b"x"`. -/
theorem C10_witness :
    dbGet (batchCommit 64 true openFresh [([97], some [120])]) [97] = some [120] := by
  have h := C10_batch_buffering 64 true openFresh mempty [([97], some [120])]
    dbInv_openFresh (by simp)
    (by
      intro kv hkv
      rw [List.mem_singleton] at hkv
      subst hkv
      exact ⟨by decide, fun v hv => by injection hv with hv; subst hv; decide⟩)
  exact h.2.2.2 [97] (some [120]) (List.mem_singleton.mpr rfl)

/-! ### I/O backends (`src/coodb/fio/io_manager.py`) (C9)

Both managers are modelled over the same observable alphabet: `write`,
`read(buf_len, offset)` and `size`.  The buffered backend's state is the
file contents; the memory-mapped backend also caches `size_value` and
whether a mapping exists (`self.mmap is not None`).  `mmap` write raises
`AttributeError` when no mapping exists and no growth happens
(`self.mmap.seek` on `None`), modelled as `none`. -/

inductive IOOp where
  | writeOp (b : Bytes)
  | readOp (bufLen offset : Nat)
  | sizeOp

inductive IORes where
  | wrote (n : Nat)
  | readRes (n : Nat) (data : Bytes)
  | sizeRes (n : Nat)
deriving DecidableEq, Repr

structure FioState where
  contents : Bytes
deriving DecidableEq, Repr

/-- `FileIOManager`: `write` appends at EOF (mode `ab+`), `read` seeks and
`readinto`s — copying `min(len(b), size - offset)` bytes, 0 past EOF —
and `size` is the file length. -/
def fioStep (st : FioState) : IOOp → IORes × FioState
  | .writeOp b => (.wrote b.length, ⟨st.contents ++ b⟩)
  | .readOp l o =>
      (.readRes (min l (st.contents.length - o))
        ((st.contents.drop o).take (min l (st.contents.length - o))), st)
  | .sizeOp => (.sizeRes st.contents.length, st)

def fioRun (st : FioState) : List IOOp → List IORes
  | [] => []
  | op :: rest =>
      let r := fioStep st op
      r.1 :: fioRun r.2 rest

structure MmapState where
  contents : Bytes
  sizeValue : Nat
  hasMap : Bool
deriving DecidableEq, Repr

/-- `MMapIOManager.__init__`: map the file unless it is empty. -/
def mmapInit (init : Bytes) : MmapState :=
  ⟨init, init.length, init.length != 0⟩

/-- One `MMapIOManager` operation.  `write` grows the mapping when the new
size exceeds the current one (on the Windows hosts the code targets,
remapping with a larger length extends the file, and the buffer is then
written at the old end); with no growth and no mapping, `self.mmap.seek`
raises — `none`.  `read` returns 0 past `size_value` or with no mapping,
else copies out of the mapping.  `size` returns the cached
`size_value`. -/
def mmapStep (st : MmapState) : IOOp → Option (IORes × MmapState)
  | .writeOp b =>
      if st.sizeValue < st.sizeValue + b.length then
        some (.wrote b.length, ⟨st.contents ++ b, st.sizeValue + b.length, true⟩)
      else if st.hasMap then
        some (.wrote b.length, ⟨st.contents ++ b, st.sizeValue + b.length, st.hasMap⟩)
      else none
  | .readOp l o =>
      if o ≥ st.sizeValue then some (.readRes 0 [], st)
      else if !st.hasMap then some (.readRes 0 [], st)
      else
        some (.readRes (min l (st.sizeValue - o))
          ((st.contents.drop o).take (min l (st.sizeValue - o))), st)
  | .sizeOp => some (.sizeRes st.sizeValue, st)

def mmapRun (st : MmapState) : List IOOp → Option (List IORes)
  | [] => some []
  | op :: rest =>
      match mmapStep st op with
      | none => none
      | some (r, st') => (mmapRun st' rest).map (r :: ·)

/-- The simulation relation between the two backends' states. -/
def IORel (fs : FioState) (ms : MmapState) : Prop :=
  ms.contents = fs.contents ∧ ms.sizeValue = ms.contents.length ∧
  (ms.hasMap = false → ms.contents = [])

theorem iorel_init (init : Bytes) : IORel ⟨init⟩ (mmapInit init) := by
  refine ⟨rfl, rfl, ?_⟩
  intro h
  simp only [mmapInit, bne_eq_false_iff_eq] at h
  exact List.eq_nil_of_length_eq_zero (by simpa using h)

theorem iorun_agree {fs : FioState} {ms : MmapState} (ops : List IOOp)
    (hrel : IORel fs ms) (hw : ∀ b, IOOp.writeOp b ∈ ops → b ≠ []) :
    mmapRun ms ops = some (fioRun fs ops) := by
  induction ops generalizing fs ms with
  | nil => rfl
  | cons op rest ih =>
    obtain ⟨hc, hs, hm⟩ := hrel
    have hwrest : ∀ b, IOOp.writeOp b ∈ rest → b ≠ [] :=
      fun b hb => hw b (List.mem_cons_of_mem _ hb)
    cases op with
    | writeOp b =>
      have hb : b ≠ [] := hw b (List.mem_cons_self _ _)
      have hblen : 0 < b.length := List.length_pos.mpr hb
      have hstep : mmapStep ms (.writeOp b)
          = some (.wrote b.length,
              ⟨ms.contents ++ b, ms.sizeValue + b.length, true⟩) := by
        simp only [mmapStep]
        rw [if_pos (by omega)]
      have hrel' : IORel ⟨fs.contents ++ b⟩
          ⟨ms.contents ++ b, ms.sizeValue + b.length, true⟩ :=
        ⟨by rw [hc], by simp [hs], by simp⟩
      simp only [mmapRun, fioRun, fioStep, hstep]
      rw [ih hrel' hwrest]
      simp only [Option.map_some']
    | readOp l o =>
      have hstep : mmapStep ms (.readOp l o)
          = some (.readRes (min l (fs.contents.length - o))
              ((fs.contents.drop o).take (min l (fs.contents.length - o))), ms) := by
        simp only [mmapStep]
        by_cases ho : o ≥ ms.sizeValue
        · rw [if_pos ho]
          have h0 : min l (fs.contents.length - o) = 0 := by
            rw [← hc, ← hs]
            omega
          rw [h0]
          simp
        · rw [if_neg ho]
          rw [if_neg (by
            cases hmap : ms.hasMap with
            | false =>
              have hnil := hm hmap
              rw [hnil] at hs
              simp only [List.length_nil] at hs
              exact absurd (by omega : o ≥ ms.sizeValue) ho
            | true => simp)]
          rw [hc] at hs
          rw [hs, hc]
      simp only [mmapRun, fioRun, fioStep, hstep]
      rw [ih ⟨hc, hs, hm⟩ hwrest]
      rfl
    | sizeOp =>
      have hstep : mmapStep ms .sizeOp = some (.sizeRes fs.contents.length, ms) := by
        simp only [mmapStep]
        rw [hc] at hs
        rw [hs]
      simp only [mmapRun, fioRun, fioStep, hstep]
      rw [ih ⟨hc, hs, hm⟩ hwrest]
      rfl

/-- C9, counterexample to the claim as stated: starting from the empty
file, `write(b"")` returns 0 on the buffered backend but raises
`AttributeError` on the memory-mapped backend (`self.mmap` is `None` for
an empty file and a zero-length write does not grow the mapping). -/
theorem C9_counterexample :
    fioRun ⟨[]⟩ [IOOp.writeOp []] = [IORes.wrote 0] ∧
    mmapRun (mmapInit []) [IOOp.writeOp []] = none := by
  constructor
  · rfl
  · rfl

/-- C9 (amended): for every sequence of write, read and size operations
starting from the same file contents (the empty file included) in which
every write is non-empty, the two backends return identical results:
writes append at the current end and report the byte count, reads copy
`min(len(buf), size - offset)` bytes (0 at or past EOF), and size reports
the current length. -/
theorem C9_backend_equivalence (init : Bytes) (ops : List IOOp)
    (hw : ∀ b, IOOp.writeOp b ∈ ops → b ≠ []) :
    mmapRun (mmapInit init) ops = some (fioRun ⟨init⟩ ops) :=
  iorun_agree ops (iorel_init init) hw

/-- C9 witness: a concrete write/read/size script agrees on both
backends. -/
theorem C9_witness :
    mmapRun (mmapInit [1, 2]) [IOOp.writeOp [3, 4], IOOp.readOp 3 1, IOOp.sizeOp]
      = some (fioRun ⟨[1, 2]⟩ [IOOp.writeOp [3, 4], IOOp.readOp 3 1, IOOp.sizeOp]) :=
  C9_backend_equivalence [1, 2] [IOOp.writeOp [3, 4], IOOp.readOp 3 1, IOOp.sizeOp]
    (by
      intro b hb
      rcases List.mem_cons.mp hb with heq | hb
      · injection heq with heq
        subst heq
        decide
      rcases List.mem_cons.mp hb with heq | hb
      · cases heq
      rcases List.mem_cons.mp hb with heq | hb
      · cases heq
      · cases hb)

end CooDb
